import Mathlib

set_option maxRecDepth 100000

/-!
Verification development for the bill-extraction service
(`src/app.py`, `src/app1.py`): a shallow embedding in Lean 4 of the
response normalization and repair pipeline, together with proofs of the
specified properties.

Modelling conventions:
* Python strings are `List Char`.
* JSON values (and the loosely-typed dicts that flow through the
  pipeline) are the inductive type `JVal`; Python `None` is `JVal.null`.
* Python floats are modelled as exact rationals `ℚ`.  Every numeric
  literal reached by the specified properties is a small decimal
  fraction, which binary doubles represent an exactly rounded version
  of; no specified property depends on binary rounding artifacts.
* Code that can raise returns `Except (List Char) _`; the error payload
  models the exception text (always nonempty).
-/

namespace Bill

/-- The whitespace characters stripped by Python's `str.strip()` (and by
`float()`): space, tab, newline, carriage return, vertical tab, form
feed.  (`str.strip()` also strips rarer Unicode whitespace; no input in
this development contains any.) -/
def isPySpace (c : Char) : Bool :=
  c = ' ' || c = '\t' || c = '\n' || c = '\r' || c = '\x0b' || c = '\x0c'

/-- The whitespace accepted by Python's strict `json.loads` between
tokens: space, tab, newline, carriage return only. -/
def isJsonWs (c : Char) : Bool :=
  c = ' ' || c = '\t' || c = '\n' || c = '\r'

/-- Drop the matching characters from the end of a list. -/
def dropEndWhile (p : Char → Bool) (l : List Char) : List Char :=
  (l.reverse.dropWhile p).reverse

/-- Python `str.strip()`. -/
def pyStrip (l : List Char) : List Char :=
  dropEndWhile isPySpace (l.dropWhile isPySpace)

/-- Strip surrounding strict-JSON whitespace (what `json.loads` ignores
around the single top-level value). -/
def jsonStrip (l : List Char) : List Char :=
  dropEndWhile isJsonWs (l.dropWhile isJsonWs)

/-- Numeric value of a list of decimal digit characters. -/
def digitsVal (ds : List Char) : Nat :=
  ds.foldl (fun a c => 10 * a + (c.toNat - 48)) 0

/-- Read an optional sign character.  Returns `true` for a consumed
leading minus. -/
def readSign (l : List Char) : Bool × List Char :=
  match l with
  | c :: r => if c = '-' then (true, r) else if c = '+' then (false, r) else (false, l)
  | [] => (false, l)

/-- Model of Python's `float(s)` on the string inputs this program can
feed it: an optionally signed decimal literal `[+-]? digits [. digits]
[(e|E) [+-]? digits]` with at least one mantissa digit, surrounded by
optional whitespace.  Returns `none` where `float` raises `ValueError`.
(Python additionally accepts `inf`/`nan` spellings and `_` digit
separators; none of the specified properties involves them, and the
pipeline's inputs for which behaviour is claimed never contain them.) -/
def pyFloat (s : List Char) : Option ℚ :=
  let cs := pyStrip s
  let (neg, cs1) := readSign cs
  let ip := cs1.takeWhile Char.isDigit
  let csa := cs1.dropWhile Char.isDigit
  let (fp, csb) :=
    match csa with
    | '.' :: r => (r.takeWhile Char.isDigit, r.dropWhile Char.isDigit)
    | _ => (([] : List Char), csa)
  if ip.isEmpty && fp.isEmpty then none
  else
    let mant : ℚ := (digitsVal ip : ℚ) + (digitsVal fp : ℚ) / (10 : ℚ) ^ fp.length
    let sgn : ℚ := if neg then -1 else 1
    match csb with
    | [] => some (sgn * mant)
    | 'e' :: r =>
        let (eneg, r1) := readSign r
        let ed := r1.takeWhile Char.isDigit
        if ed.isEmpty || !(r1.dropWhile Char.isDigit).isEmpty then none
        else
          let ex : ℤ := if eneg then -(digitsVal ed : ℤ) else (digitsVal ed : ℤ)
          some (sgn * mant * (10 : ℚ) ^ ex)
    | 'E' :: r =>
        let (eneg, r1) := readSign r
        let ed := r1.takeWhile Char.isDigit
        if ed.isEmpty || !(r1.dropWhile Char.isDigit).isEmpty then none
        else
          let ex : ℤ := if eneg then -(digitsVal ed : ℤ) else (digitsVal ed : ℤ)
          some (sgn * mant * (10 : ℚ) ^ ex)
    | _ => none

/-- The dynamically typed values flowing through the pipeline: JSON
values as produced by `json.loads`, plus Python `None` (`null`).
Numbers are exact rationals (see the header note on floats).  Objects
are insertion-ordered key/value lists with distinct keys, as Python
dicts are. -/
inductive JVal where
  | null : JVal
  | bool : Bool → JVal
  | num : ℚ → JVal
  | str : List Char → JVal
  | arr : List JVal → JVal
  | obj : List (List Char × JVal) → JVal
deriving Repr

mutual

/-- Structural equality test on `JVal` (written by hand because equality
cannot be auto-derived for this nested inductive). -/
def beqVal : JVal → JVal → Bool
  | .null, .null => true
  | .bool a, .bool b => a == b
  | .num a, .num b => a == b
  | .str a, .str b => a == b
  | .arr a, .arr b => beqArr a b
  | .obj a, .obj b => beqObj a b
  | _, _ => false

/-- Elementwise `beqVal` on value lists. -/
def beqArr : List JVal → List JVal → Bool
  | [], [] => true
  | x :: xs, y :: ys => beqVal x y && beqArr xs ys
  | _, _ => false

/-- Elementwise `beqVal` on field lists. -/
def beqObj : List (List Char × JVal) → List (List Char × JVal) → Bool
  | [], [] => true
  | (k, v) :: xs, (k', v') :: ys => k == k' && beqVal v v' && beqObj xs ys
  | _, _ => false

end

mutual

theorem beqVal_iff : ∀ a b : JVal, beqVal a b = true ↔ a = b
  | .null, b => by cases b <;> simp [beqVal]
  | .bool a, b => by cases b <;> simp [beqVal]
  | .num a, b => by cases b <;> simp [beqVal]
  | .str a, b => by cases b <;> simp [beqVal]
  | .arr a, b => by
      cases b with
      | arr c => simpa [beqVal] using beqArr_iff a c
      | _ => simp [beqVal]
  | .obj a, b => by
      cases b with
      | obj c => simpa [beqVal] using beqObj_iff a c
      | _ => simp [beqVal]

theorem beqArr_iff : ∀ a b : List JVal, beqArr a b = true ↔ a = b
  | [], b => by cases b <;> simp [beqArr]
  | x :: xs, b => by
      cases b with
      | nil => simp [beqArr]
      | cons y ys =>
          simp only [beqArr, Bool.and_eq_true, beqVal_iff x y, beqArr_iff xs ys,
            List.cons.injEq]

theorem beqObj_iff : ∀ a b : List (List Char × JVal), beqObj a b = true ↔ a = b
  | [], b => by cases b <;> simp [beqObj]
  | (k, v) :: xs, b => by
      cases b with
      | nil => simp [beqObj]
      | cons y ys =>
          obtain ⟨k', v'⟩ := y
          simp [beqObj, Bool.and_eq_true, beqVal_iff v v', beqObj_iff xs ys,
            List.cons.injEq, beq_iff_eq, Prod.mk.injEq, and_assoc]

end

instance : DecidableEq JVal := fun a b => decidable_of_iff _ (beqVal_iff a b)

/-- Python truthiness of a `JVal`: `None`, `False`, zero, and empty
containers are falsy. -/
def truthy : JVal → Bool
  | .null => false
  | .bool b => b
  | .num q => decide (q ≠ 0)
  | .str s => !s.isEmpty
  | .arr l => !l.isEmpty
  | .obj l => !l.isEmpty

/-- First binding of key `k` in an object's field list. -/
def lookupKey (fields : List (List Char × JVal)) (k : List Char) : Option JVal :=
  match fields with
  | [] => none
  | (k', v) :: rest => if k' = k then some v else lookupKey rest k

/-- `d[k] = v` on a Python dict: overwrite in place if the key exists
(keeping its position), else append. -/
def objInsert (fields : List (List Char × JVal)) (k : List Char) (v : JVal) :
    List (List Char × JVal) :=
  if fields.any (fun p => p.1 = k) then
    fields.map (fun p => if p.1 = k then (k, v) else p)
  else fields ++ [(k, v)]

/-- Decimal rendering of an integer, as Python prints it. -/
def intStr (i : ℤ) : List Char := (toString i).data

/-- Model of Python `str(v)` on `JVal`s.  Only the `str`, `null` and
`bool` cases are ever reached by a specified property (the pipeline
applies it to `page.get("page_no", "")`, which stage one always sets to
a string); numbers render integers exactly, and container rendering is a
placeholder for Python's `repr`-style output, which no property
observes. -/
def pyStr : JVal → List Char
  | .null => "None".data
  | .bool true => "True".data
  | .bool false => "False".data
  | .str s => s
  | .num q => if q.den = 1 then intStr q.num else intStr q.num ++ '/' :: (toString q.den).data
  | .arr _ => "[...]".data
  | .obj _ => "\x7b...\x7d".data

/-- The `replace` chain of `safe_float` on a string: remove commas and
currency signs, turn `(` into `-`, remove `)` (single-character
`str.replace` is elementwise filtering/mapping), in source order. -/
def moneyClean (s : List Char) : List Char :=
  let s1 := (s.filter fun c => decide (c ≠ ',')).filter fun c => decide (c ≠ '₹')
  let s2 := s1.filter fun c => decide (c ≠ '$')
  (s2.map fun c => if c = '(' then '-' else c).filter fun c => decide (c ≠ ')')

/-- The body of `safe_float`'s `try` block (src/app.py lines 98-103,
src/app1.py lines 95-100): the computation whose exceptions the bare
`except` swallows.  `str(v)` followed by the `replace` chain and
`float(...)` is collapsed per constructor: for numbers,
`float(str(v))` is the identity (Python's repr round-trip; the
replaced characters never occur in a number's repr); for `None` and
`""` the guard returns `0.0` before any parsing; for strings the
replace chain and `float` are modelled literally; for the remaining
constructors `str(v)` never parses as a float (brackets and braces
survive the replace chain), so `float` raises. -/
def safe_float_try (v : JVal) : Except Unit ℚ :=
  if v = JVal.null ∨ v = JVal.str [] then Except.ok 0
  else
    match v with
    | .num q => Except.ok q
    | .str s =>
        match pyFloat (pyStrip (moneyClean s)) with
        | some q => Except.ok q
        | none => Except.error ()
    | _ => Except.error ()

/-- `safe_float` (src/app.py lines 97-105, src/app1.py lines 94-102):
total numeric normalizer; any exception in the body yields `0.0`. -/
def safe_float (v : JVal) : ℚ :=
  match safe_float_try v with
  | .ok q => q
  | .error _ => 0

/-! ### Python string operations used by the repair parse -/

/-- Python `s.replace(pat, repl)` for nonempty `pat`: replace all
non-overlapping occurrences, scanning left to right, without rescanning
replaced text. -/
def replaceSub (pat repl : List Char) : List Char → List Char
  | [] => []
  | c :: rest =>
      if h : pat ≠ [] ∧ pat.isPrefixOf (c :: rest) then
        repl ++ replaceSub pat repl ((c :: rest).drop pat.length)
      else
        c :: replaceSub pat repl rest
termination_by l => l.length
decreasing_by
  · have hp : 0 < pat.length := List.length_pos.mpr h.1
    simp only [List.length_drop, List.length_cons]
    omega
  · simp only [List.length_cons]
    omega

/-- `pat` occurs as a contiguous substring. -/
def hasSub (pat : List Char) : List Char → Bool
  | [] => pat.isEmpty
  | c :: rest => pat.isPrefixOf (c :: rest) || hasSub pat rest

/-- Model of `re.sub(r"^json", "", raw, flags=re.IGNORECASE)`: the
anchored pattern matches at most once, at position 0. -/
def stripJsonTag (cs : List Char) : List Char :=
  match cs with
  | c1 :: c2 :: c3 :: c4 :: rest =>
      if c1.toLower = 'j' ∧ c2.toLower = 's' ∧ c3.toLower = 'o' ∧ c4.toLower = 'n' then rest
      else cs
  | _ => cs

/-- Python `s.find(c)` for a single-character needle: first index or `-1`. -/
def pyFindChar (l : List Char) (c : Char) : ℤ :=
  match l.findIdx? (· == c) with
  | some i => (i : ℤ)
  | none => -1

/-- Python `s.rfind(c)` for a single-character needle: last index or `-1`. -/
def pyRfindChar (l : List Char) (c : Char) : ℤ :=
  match l.reverse.findIdx? (· == c) with
  | some i => (l.length : ℤ) - 1 - (i : ℤ)
  | none => -1

/-- Python slicing `s[a:b]` with possibly negative bounds. -/
def pySlice (l : List Char) (a b : ℤ) : List Char :=
  let n : ℤ := l.length
  let a' : ℤ := if a < 0 then max (n + a) 0 else min a n
  let b' : ℤ := if b < 0 then max (n + b) 0 else min b n
  (l.take b'.toNat).drop a'.toNat

/-- Helper for the `,\s*}` / `,\s*]` substitutions: after a comma, skip
regex-`\s` characters; succeed (returning the remainder past it) only if
the next character is `close`. -/
def wsThen (close : Char) : List Char → Option (List Char)
  | [] => none
  | c :: r => if c = close then some r else if isPySpace c then wsThen close r else none

theorem wsThen_length_lt {close : Char} :
    ∀ {l r : List Char}, wsThen close l = some r → r.length < l.length := by
  intro l
  induction l with
  | nil => intro r h; simp [wsThen] at h
  | cons c t ih =>
      intro r h
      simp only [wsThen] at h
      split at h
      · cases h; simp
      · split at h
        · exact Nat.lt_trans (ih h) (by simp)
        · cases h

/-- Model of `re.sub(r",\s*X", "X", s)` for a closing bracket `X`:
left-to-right non-overlapping replacement of a comma followed by
whitespace followed by `X`, by `X` alone (regex `\s` is exactly the
characters of `isPySpace`). -/
def subCommaClose (close : Char) : List Char → List Char
  | [] => []
  | c :: rest =>
      if c = ',' then
        match h : wsThen close rest with
        | some rest' => close :: subCommaClose close rest'
        | none => ',' :: subCommaClose close rest
      else c :: subCommaClose close rest
termination_by l => l.length
decreasing_by
  · exact Nat.lt_trans (wsThen_length_lt h) (by simp)
  · simp
  · simp

/-! ### Model of Python's strict `json.loads`

An executable recursive-descent parser for RFC 8259 JSON with Python's
object semantics (later duplicate keys overwrite earlier ones in
place).  Deliberate model restrictions, none reachable by a specified
property: the non-standard `NaN`/`Infinity` extensions are rejected,
`\uXXXX` escapes denoting lone surrogate halves are rejected (Lean
`Char` cannot hold them), and numbers are exact rationals where Python
rounds decimals to binary doubles.

The mutually recursive functions take explicit fuel; every recursive
call decrements the fuel by one and consumes at least one input
character first, so `length + 1` fuel never runs out on an input the
grammar accepts, and on rejected inputs the result is `none` either
way. -/

/-- JSON simple escape characters. -/
def escChar : Char → Option Char
  | '"' => some '"'
  | '\\' => some '\\'
  | '/' => some '/'
  | 'b' => some '\x08'
  | 'f' => some '\x0c'
  | 'n' => some '\n'
  | 'r' => some '\r'
  | 't' => some '\t'
  | _ => none

/-- Value of one hexadecimal digit. -/
def hexVal (c : Char) : Option Nat :=
  if '0' ≤ c ∧ c ≤ '9' then some (c.toNat - 48)
  else if 'a' ≤ c ∧ c ≤ 'f' then some (c.toNat - 87)
  else if 'A' ≤ c ∧ c ≤ 'F' then some (c.toNat - 55)
  else none

/-- Value of a four-digit hexadecimal escape. -/
def hex4 (a b c d : Char) : Option Nat :=
  match hexVal a, hexVal b, hexVal c, hexVal d with
  | some x, some y, some z, some w => some (((x * 16 + y) * 16 + z) * 16 + w)
  | _, _, _, _ => none

/-- On seeing `\u` with a high-surrogate escape value `n`, consume a
matching low-surrogate escape and combine the pair. -/
def parseLowSurrogate (n : Nat) (r3 : List Char) : Option (Char × List Char) :=
  match r3 with
  | b1 :: b2 :: g1 :: g2 :: g3 :: g4 :: r4 =>
      if b1 = '\\' ∧ b2 = 'u' then
        match hex4 g1 g2 g3 g4 with
        | none => none
        | some m =>
            if 0xDC00 ≤ m ∧ m ≤ 0xDFFF then
              some (Char.ofNat (0x10000 + (n - 0xD800) * 0x400 + (m - 0xDC00)), r4)
            else none
      else none
  | _ => none

/-- Parse a JSON string body (the opening quote already consumed),
returning the unescaped content and the remainder past the closing
quote. -/
def parseJString : Nat → List Char → Option (List Char × List Char)
  | 0, _ => none
  | fuel + 1, cs =>
      match cs with
      | [] => none
      | c :: rest =>
          if c = '"' then some ([], rest)
          else if c = '\\' then
            match rest with
            | [] => none
            | e :: r2 =>
                if e = 'u' then
                  match r2 with
                  | h1 :: h2 :: h3 :: h4 :: r3 =>
                      (match hex4 h1 h2 h3 h4 with
                       | none => none
                       | some n =>
                           if 0xD800 ≤ n ∧ n ≤ 0xDBFF then
                             match parseLowSurrogate n r3 with
                             | none => none
                             | some (c2, r4) =>
                                 (match parseJString fuel r4 with
                                  | some (s, r) => some (c2 :: s, r)
                                  | none => none)
                           else if 0xDC00 ≤ n ∧ n ≤ 0xDFFF then none
                           else
                             match parseJString fuel r3 with
                             | some (s, r) => some (Char.ofNat n :: s, r)
                             | none => none)
                  | _ => none
                else
                  match escChar e with
                  | some c2 =>
                      (match parseJString fuel r2 with
                       | some (s, r) => some (c2 :: s, r)
                       | none => none)
                  | none => none
          else if c.toNat < 0x20 then none
          else
            match parseJString fuel rest with
            | some (s, r) => some (c :: s, r)
            | none => none

/-- Numeric value of a parsed JSON number. -/
def mkJsonNum (neg : Bool) (ip fp : List Char) (ex : ℤ) : ℚ :=
  (if neg then -1 else 1) *
    ((digitsVal ip : ℚ) + (digitsVal fp : ℚ) / (10 : ℚ) ^ fp.length) * (10 : ℚ) ^ ex

/-- Exponent part of a JSON number: called on the text after `e`/`E`.
If no digit follows (the exponent fails to materialize), the regex
scanner keeps the shorter match, so the `e` stays unconsumed (`orig` is
the remainder including it). -/
def expPart (r orig : List Char) : ℤ × List Char :=
  match r with
  | [] => (0, orig)
  | c :: r2 =>
      if c = '+' then
        match r2 with
        | [] => (0, orig)
        | d :: r3 =>
            if d.isDigit then
              ((digitsVal ((d :: r3).takeWhile Char.isDigit) : ℤ), (d :: r3).dropWhile Char.isDigit)
            else (0, orig)
      else if c = '-' then
        match r2 with
        | [] => (0, orig)
        | d :: r3 =>
            if d.isDigit then
              (-(digitsVal ((d :: r3).takeWhile Char.isDigit) : ℤ), (d :: r3).dropWhile Char.isDigit)
            else (0, orig)
      else if c.isDigit then
        ((digitsVal ((c :: r2).takeWhile Char.isDigit) : ℤ), (c :: r2).dropWhile Char.isDigit)
      else (0, orig)

/-- Parse a JSON number token at the head of the input, with the maximal
munch and backtracking of the `json` module's number regex
`-?(0|[1-9]\d*)(\.\d+)?([eE][-+]?\d+)?` (so `01` parses as `0` with
remainder `1`, and `1.` parses as `1` with remainder `.`). -/
def numSign (cs : List Char) : Bool × List Char :=
  match cs with
  | c :: r => if c = '-' then (true, r) else (false, cs)
  | [] => (false, cs)

/-- The optional fraction part `(\.\d+)?` (with regex backtracking: a
`.` not followed by a digit is left unconsumed). -/
def numFrac (csa : List Char) : List Char × List Char :=
  match csa with
  | [] => ([], csa)
  | d0 :: csa1 =>
      if d0 = '.' then
        match csa1 with
        | [] => ([], csa)
        | d :: r =>
            if d.isDigit then
              ((d :: r).takeWhile Char.isDigit, (d :: r).dropWhile Char.isDigit)
            else ([], csa)
      else ([], csa)

/-- The optional exponent part `([eE][-+]?\d+)?` (with backtracking via
`expPart`). -/
def numExp (csb : List Char) : ℤ × List Char :=
  match csb with
  | [] => ((0 : ℤ), csb)
  | e0 :: r => if e0 = 'e' ∨ e0 = 'E' then expPart r csb else ((0 : ℤ), csb)

def parseNumber (cs : List Char) : Option (ℚ × List Char) :=
  match numSign cs with
  | (neg, cs1) =>
      match cs1 with
      | [] => none
      | c :: tl =>
          if ¬ c.isDigit then none
          else
            match (if c = '0' then (['0'], tl)
                   else (cs1.takeWhile Char.isDigit, cs1.dropWhile Char.isDigit) :
                     List Char × List Char) with
            | (ip, csa) =>
                match numFrac csa with
                | (fp, csb) =>
                    match numExp csb with
                    | (ex, csc) => some (mkJsonNum neg ip fp ex, csc)

mutual

/-- Parse one JSON value starting at the first input character (callers
skip whitespace before calling). -/
def parseVal : Nat → List Char → Option (JVal × List Char)
  | 0, _ => none
  | fuel + 1, cs =>
      match cs with
      | [] => none
      | c :: rest =>
          if c = '\x7b' then
            match rest.dropWhile isJsonWs with
            | [] => parseMembers fuel [] rest
            | d :: r2 =>
                if d = '\x7d' then some (.obj [], r2) else parseMembers fuel [] rest
          else if c = '[' then
            match rest.dropWhile isJsonWs with
            | [] => parseElems fuel [] rest
            | d :: r2 =>
                if d = ']' then some (.arr [], r2) else parseElems fuel [] rest
          else if c = '"' then
            match parseJString (rest.length + 1) rest with
            | some (s, r) => some (.str s, r)
            | none => none
          else if c = 't' then
            if ['r', 'u', 'e'].isPrefixOf rest then some (.bool true, rest.drop 3) else none
          else if c = 'f' then
            if ['a', 'l', 's', 'e'].isPrefixOf rest then some (.bool false, rest.drop 4) else none
          else if c = 'n' then
            if ['u', 'l', 'l'].isPrefixOf rest then some (.null, rest.drop 3) else none
          else if c = '-' ∨ c.isDigit then
            match parseNumber (c :: rest) with
            | some (q, r) => some (.num q, r)
            | none => none
          else none

/-- Parse the members of an object (input positioned right after `{`,
known not to be immediately closed), accumulating Python-dict field
semantics via `objInsert`. -/
def parseMembers : Nat → List (List Char × JVal) → List Char → Option (JVal × List Char)
  | 0, _, _ => none
  | fuel + 1, acc, cs =>
      match cs.dropWhile isJsonWs with
      | [] => none
      | c :: r =>
          if c = '"' then
            match parseJString (r.length + 1) r with
            | some (key, r1) =>
                (match r1.dropWhile isJsonWs with
                 | [] => none
                 | d :: r2 =>
                     if d = ':' then
                       match parseVal fuel (r2.dropWhile isJsonWs) with
                       | some (v, r3) =>
                           let acc' := objInsert acc key v
                           (match r3.dropWhile isJsonWs with
                            | [] => none
                            | d2 :: r4 =>
                                if d2 = ',' then parseMembers fuel acc' r4
                                else if d2 = '\x7d' then some (.obj acc', r4)
                                else none)
                       | none => none
                     else none)
            | none => none
          else none

/-- Parse the elements of an array (input positioned right after `[`,
known not to be immediately closed). -/
def parseElems : Nat → List JVal → List Char → Option (JVal × List Char)
  | 0, _, _ => none
  | fuel + 1, acc, cs =>
      match parseVal fuel (cs.dropWhile isJsonWs) with
      | some (v, r) =>
          (match r.dropWhile isJsonWs with
           | [] => none
           | d :: r2 =>
               if d = ',' then parseElems fuel (acc ++ [v]) r2
               else if d = ']' then some (.arr (acc ++ [v]), r2)
               else none)
      | none => none

end

/-- Model of `json.loads`: exactly one JSON value, surrounded only by
strict-JSON whitespace; `none` where `json.loads` raises. -/
def jsonParse (cs : List Char) : Option JVal :=
  let t := jsonStrip cs
  match parseVal (t.length + 1) t with
  | some (v, []) => some v
  | _ => none

/-- The JSON repair parse applied to each raw model reply
(src/app.py lines 331-346, identically src/app1.py lines 301-314); the
spec names this logic `parse_model_json`.  First the fence markers and
a leading `json` tag are stripped; a direct parse is attempted; on
failure the text between the first `{` and the last `}` is sliced out,
NUL characters are dropped, trailing commas before `}`/`]` are removed,
and the parse is retried.  The error payload models the
`json.JSONDecodeError` text of the final failed parse (nonempty).

`fence_strip` is the cleaning stage (src/app1.py lines 301-303): strip,
remove fence markers, strip, remove a leading case-insensitive `json`
tag, strip. -/
def fence_strip (text : List Char) : List Char :=
  let raw0 := pyStrip text
  let raw1 := pyStrip (replaceSub "```".data [] (replaceSub "```json".data [] raw0))
  pyStrip (stripJsonTag raw1)

def parse_model_json (text : List Char) : Except (List Char) JVal :=
  let raw := fence_strip text
  match jsonParse raw with
  | some v => Except.ok v
  | none =>
      let s := pyFindChar raw '\x7b'
      let e := pyRfindChar raw '\x7d' + 1
      let cleaned := pySlice raw s e
      let cleaned2 := replaceSub ['\x00'] [] cleaned
      let cleaned3 := subCommaClose '\x7d' cleaned2
      let cleaned4 := subCommaClose ']' cleaned3
      match jsonParse cleaned4 with
      | some v => Except.ok v
      | none => Except.error "json.decoder.JSONDecodeError: Expecting value".data

/-! ### The page pipeline: orchestration, normalization, assembly

The embedding follows `extract_bill_data` of src/app1.py (lines
252-398), which is src/app.py's `extract_bill_data` (lines 286-404)
plus token-usage accounting; apart from the `token_usage` field of the
success payload the two are line-for-line identical.  The model
collaborator (Gemini call) is out of scope: each page's reply — the
raw text plus the token-usage triple that `get_token_usage` extracts —
is an input. -/

/-- Rounding of `float(f"{x:.2f}")`: round to two decimal places,
ties to even (the rounding of Python's float formatting; the model
rounds the exact rational where Python rounds the nearest binary
double, indistinguishable for every value a specified property
observes). -/
def roundHalfEven (q : ℚ) : ℤ :=
  let f := ⌊q⌋
  let r := q - f
  if r < 1 / 2 then f
  else if 1 / 2 < r then f + 1
  else if f % 2 = 0 then f else f + 1

/-- `float(f"{q:.2f}")`. -/
def round2 (q : ℚ) : ℚ := (roundHalfEven (q * 100) : ℚ) / 100

/-- The token-usage triple of one model call, as `get_token_usage`
returns it (src/app1.py lines 105-116). -/
structure TokenUsage where
  input_tokens : Nat
  output_tokens : Nat
  total_tokens : Nat
deriving DecidableEq, Repr

/-- One page's model reply: the raw response text and its token usage.
This is the interface to the out-of-scope model collaborator. -/
structure ModelReply where
  text : List Char
  usage : TokenUsage
deriving DecidableEq, Repr

/-- A normalized line item (src/app1.py lines 345-350). -/
structure NormItem where
  item_name : List Char
  item_amount : ℚ
  item_rate : ℚ
  item_quantity : ℚ
deriving DecidableEq, Repr

/-- One page of the success payload (src/app1.py lines 354-358). -/
structure PageOut where
  page_no : List Char
  page_type : JVal
  bill_items : List NormItem
deriving DecidableEq, Repr

/-- The externally observable result of the endpoint: the success shape
carries `token_usage` and the `data` fields, the failure shape carries
only the error text (plus a traceback string, not modelled) — by
construction no failure carries data. -/
inductive ApiResult where
  | success (token_usage : TokenUsage) (pagewise_line_items : List PageOut)
      (total_item_count : Nat) : ApiResult
  | failure (error : List Char) : ApiResult
deriving DecidableEq, Repr

/-- Python `d.get(k)` on an object's field list: `None` when absent. -/
def lookupD (fields : List (List Char × JVal)) (k : List Char) : JVal :=
  (lookupKey fields k).getD .null

/-- `it.get(k)` where `it` may not be a dict; the pipeline only reaches
the non-dict case through an error path, where this default is unused. -/
def itemGet (it : JVal) (k : List Char) : JVal :=
  match it with
  | .obj f => lookupD f k
  | _ => .null

/-- Python `(v or "")` followed by the demand that the result be a
string (the code calls `.strip()` on it): falsy values of any type give
`""`; a truthy non-string is an `AttributeError`, modelled as `none`. -/
def pyOrStr (v : JVal) : Option (List Char) :=
  if truthy v then
    match v with
    | .str s => some s
    | _ => none
  else some []

/-- One iteration of the item-normalization loop (src/app1.py lines
337-350, identically src/app.py lines 367-381): normalize the three
numeric fields with `safe_float`; drop the item (`ok none`) when the
normalized amount is zero — before the name is touched, exactly as in
the source; otherwise sanitize the name (strip, newlines to spaces) and
round the numeric fields to two decimals. -/
def normItem (it : JVal) : Except (List Char) (Option NormItem) :=
  match it with
  | .obj fields =>
      let amount := safe_float (lookupD fields "item_amount".data)
      let rate := safe_float (lookupD fields "item_rate".data)
      let qty := safe_float (lookupD fields "item_quantity".data)
      if amount = 0 then Except.ok none
      else
        match pyOrStr (lookupD fields "item_name".data) with
        | some s =>
            Except.ok (some
              { item_name := (pyStrip s).map (fun c => if c = '\n' then ' ' else c)
                item_amount := round2 amount
                item_rate := round2 rate
                item_quantity := round2 qty })
        | none => Except.error "AttributeError: object has no attribute strip".data
  | _ => Except.error "AttributeError: object has no attribute get".data

/-- The item-normalization loop over one page's `bill_items`. -/
def normalize_items : List JVal → Except (List Char) (List NormItem)
  | [] => Except.ok []
  | it :: rest =>
      match normItem it with
      | .error e => .error e
      | .ok none => normalize_items rest
      | .ok (some ni) =>
          match normalize_items rest with
          | .error e => .error e
          | .ok tl => .ok (ni :: tl)

/-- The total normalization applied to an item the loop retains (used
to state what the loop outputs; agrees with `normItem` on every item
the loop successfully retains). -/
def normOk (it : JVal) : NormItem :=
  { item_name :=
      (pyStrip ((pyOrStr (itemGet it "item_name".data)).getD [])).map
        (fun c => if c = '\n' then ' ' else c)
    item_amount := round2 (safe_float (itemGet it "item_amount".data))
    item_rate := round2 (safe_float (itemGet it "item_rate".data))
    item_quantity := round2 (safe_float (itemGet it "item_quantity".data)) }

/-- One iteration of the page-normalization loop (src/app1.py lines
331-358, identically src/app.py lines 361-389): read `page_no` (as a
string), `page_type` (default `"Bill Detail"`) and `bill_items`
(default `[]`) with `.get`, then run the item loop.  The non-list
`bill_items` arms mirror Python iteration: an empty string or dict
iterates zero times, a nonempty one yields elements without `.get`
(`AttributeError`), anything else is not iterable (`TypeError`). -/
def normalize_page (page : JVal) : Except (List Char) PageOut :=
  match page with
  | .obj fields =>
      let page_no := pyStr ((lookupKey fields "page_no".data).getD (.str []))
      let page_type := (lookupKey fields "page_type".data).getD (.str "Bill Detail".data)
      match (lookupKey fields "bill_items".data).getD (.arr []) with
      | .arr items =>
          (match normalize_items items with
           | .ok ni => .ok { page_no := page_no, page_type := page_type, bill_items := ni }
           | .error e => .error e)
      | .str [] => .ok { page_no := page_no, page_type := page_type, bill_items := [] }
      | .obj [] => .ok { page_no := page_no, page_type := page_type, bill_items := [] }
      | .str (_ :: _) => .error "AttributeError: str object has no attribute get".data
      | .obj (_ :: _) => .error "AttributeError: str object has no attribute get".data
      | _ => .error "TypeError: object is not iterable".data
  | _ => .error "AttributeError: object has no attribute get".data

/-- The page-normalization loop, also accumulating `total_item_count`
(src/app1.py lines 328-352). -/
def normalize_pages : List JVal → Except (List Char) (List PageOut × Nat)
  | [] => .ok ([], 0)
  | p :: rest =>
      match normalize_page p with
      | .error e => .error e
      | .ok out =>
          match normalize_pages rest with
          | .error e => .error e
          | .ok (outs, cnt) => .ok (out :: outs, out.bill_items.length + cnt)

/-- The per-page body of the extraction loop after the model call
(src/app1.py lines 301-319, identically src/app.py lines 331-351):
repair-parse the reply, take `parsed["pagewise_line_items"][0]`, and
overwrite its `page_no` with the stringified caller-supplied 1-based
page index.  Non-dict/short-array shapes raise, modelled by the error
arms (a string value for `pagewise_line_items` would instead fail at
the `page_no` assignment — the same overall failure). -/
def process_page (text : List Char) (page_index : Nat) : Except (List Char) JVal :=
  match parse_model_json text with
  | .error e => .error e
  | .ok parsed =>
      match parsed with
      | .obj fields =>
          (match lookupKey fields "pagewise_line_items".data with
           | some (.arr (x :: _)) =>
               (match x with
                | .obj xf =>
                    .ok (.obj (objInsert xf "page_no".data (.str (toString page_index).data)))
                | _ => .error "TypeError: object does not support item assignment".data)
           | some (.arr []) => .error "IndexError: list index out of range".data
           | some _ => .error "TypeError: object is not subscriptable".data
           | none => .error "KeyError: pagewise_line_items".data)
      | _ => .error "TypeError: indices must be integers".data

/-- The page loop (src/app1.py lines 290-325): process the replies in
order with 1-based indices starting at `page_index`, collecting the
re-indexed pages and summing the token-usage triples componentwise. -/
def run_pages : List ModelReply → Nat → Except (List Char) (List JVal × Nat × Nat × Nat)
  | [], _ => .ok ([], 0, 0, 0)
  | r :: rest, page_index =>
      match process_page r.text page_index with
      | .error e => .error e
      | .ok p =>
          match run_pages rest (page_index + 1) with
          | .error e => .error e
          | .ok (ps, i, o, t) =>
              .ok (p :: ps, r.usage.input_tokens + i, r.usage.output_tokens + o,
                r.usage.total_tokens + t)

/-- `extract_bill_data` from the model replies on: the page loop, the
normalization loop, and response assembly (src/app1.py lines 252-398).
The outermost `except` converts any exception into the failure shape
`{is_success: false, error: str(e), trace: ...}` with no `data` key
(src/app1.py lines 393-398, identically src/app.py lines 399-404). -/
def extract_bill_data (replies : List ModelReply) : ApiResult :=
  match run_pages replies 1 with
  | .error e => .failure e
  | .ok (pages, i, o, t) =>
      match normalize_pages pages with
      | .error e => .failure e
      | .ok (outs, cnt) =>
          .success { input_tokens := i, output_tokens := o, total_tokens := t } outs cnt

instance instDecEqExcept {ε α : Type} [DecidableEq ε] [DecidableEq α] :
    DecidableEq (Except ε α)
  | .error a, .error b =>
      if h : a = b then isTrue (by rw [h])
      else isFalse (by intro hh; cases hh; exact h rfl)
  | .error _, .ok _ => isFalse (by intro hh; cases hh)
  | .ok _, .error _ => isFalse (by intro hh; cases hh)
  | .ok a, .ok b =>
      if h : a = b then isTrue (by rw [h])
      else isFalse (by intro hh; cases hh; exact h rfl)

/-- Optionally enclose a string in parentheses (input shape for the C2
locale-format grammar). -/
def parWrap (par : Bool) (l : List Char) : List Char :=
  if par then '(' :: l ++ [')'] else l

/-- The result is the failure shape with a nonempty error text; by the
shape of `ApiResult.failure`, no `data` fields are carried. -/
def isNonemptyFailure : ApiResult → Bool
  | .failure e => !e.isEmpty
  | .success _ _ _ => false

/-- Concrete two-item list exercising the C1 zero-amount filter. -/
def c1items : List JVal :=
  [.obj [("item_name".data, .str "A".data), ("item_amount".data, .str "5".data)],
   .obj [("item_amount".data, .str "0".data)]]

/-- Concrete two-page reply list (one fenced, one clean) exercising the
whole pipeline. -/
def creplies : List ModelReply :=
  [{ text := "```json\n\x7b\"pagewise_line_items\":[\x7b\"page_no\":\"9\",\"bill_items\":[\x7b\"item_name\":\"A\",\"item_amount\":5\x7d,\x7b\"item_amount\":0\x7d]\x7d]\x7d\n```".data
     usage := ⟨1, 2, 3⟩ },
   { text := "\x7b\"pagewise_line_items\":[\x7b\"bill_items\":[]\x7d]\x7d".data
     usage := ⟨10, 20, 30⟩ }]

/-- The pages `extract_bill_data creplies` produces. -/
def cpages : List PageOut :=
  [⟨"1".data, .str "Bill Detail".data, [⟨"A".data, 5, 0, 0⟩]⟩,
   ⟨"2".data, .str "Bill Detail".data, []⟩]

/-! ## Auxiliary list and character lemmas -/

theorem dropWhile_eq_self_of {p : Char → Bool} {l : List Char}
    (h : ∀ c ∈ l, p c = false) : l.dropWhile p = l := by
  cases l with
  | nil => rfl
  | cons c t => simp [List.dropWhile, h c (List.mem_cons_self c t)]

theorem takeWhile_eq_self_of {p : Char → Bool} {l : List Char}
    (h : ∀ c ∈ l, p c = true) : l.takeWhile p = l := by
  induction l with
  | nil => rfl
  | cons c t ih =>
      simp only [List.takeWhile, h c (List.mem_cons_self c t), List.cons.injEq, true_and]
      exact ih fun x hx => h x (List.mem_cons_of_mem c hx)

theorem dropWhile_eq_nil_of {p : Char → Bool} {l : List Char}
    (h : ∀ c ∈ l, p c = true) : l.dropWhile p = [] := by
  induction l with
  | nil => rfl
  | cons c t ih =>
      simp only [List.dropWhile, h c (List.mem_cons_self c t)]
      exact ih fun x hx => h x (List.mem_cons_of_mem c hx)

theorem pyStrip_eq_self_of {l : List Char} (h : ∀ c ∈ l, isPySpace c = false) :
    pyStrip l = l := by
  unfold pyStrip dropEndWhile
  rw [dropWhile_eq_self_of h, dropWhile_eq_self_of (fun c hc => h c (List.mem_reverse.mp hc)),
    List.reverse_reverse]

/-- The `isPySpace` test, unfolded to a disjunction. -/
theorem isPySpace_iff {c : Char} :
    isPySpace c = true ↔
      c = ' ' ∨ c = '\t' ∨ c = '\n' ∨ c = '\r' ∨ c = '\x0b' ∨ c = '\x0c' := by
  simp [isPySpace, or_assoc]

theorem isPySpace_eq_false_of_digit {c : Char} (h : c.isDigit = true) :
    isPySpace c = false := by
  rw [Bool.eq_false_iff]
  intro hc
  rcases isPySpace_iff.mp hc with rfl | rfl | rfl | rfl | rfl | rfl <;> simp at h

/-- A digit character is none of the characters the `safe_float`
replace chain touches. -/
theorem digit_untouched {c : Char} (h : c.isDigit = true) :
    c ≠ ',' ∧ c ≠ '₹' ∧ c ≠ '$' ∧ c ≠ '(' ∧ c ≠ ')' ∧ c ≠ '-' ∧ c ≠ '+' := by
  refine ⟨?_, ?_, ?_, ?_, ?_, ?_, ?_⟩ <;> rintro rfl <;> simp at h

/-! ## C9: totality of the numeric normalizer -/

/-- C9: the numeric normalizer `safe_float` is total — it is a function
returning a rational for every input value, the embedding of the `try`
body (`safe_float_try`) is consulted, and whenever that body raises
(`.error`) the result is `0.0`, while a successful parse is returned
unchanged.  No failure can escape, so a malformed numeric field cannot
abort a page's extraction. -/
theorem safe_float_never_raises (v : JVal) :
    (∀ e, safe_float_try v = .error e → safe_float v = 0) ∧
    (∀ q, safe_float_try v = .ok q → safe_float v = q) := by
  constructor <;> intro x h <;> simp [safe_float, h]

theorem safe_float_never_raises_witness :
    safe_float (JVal.str "not a number".data) = 0 :=
  (safe_float_never_raises (JVal.str "not a number".data)).1 () (by decide)

/-! ## C2: the numeric normalizer on locale-formatted strings -/

theorem map_eq_self_of {f : Char → Char} {l : List Char}
    (h : ∀ c ∈ l, f c = c) : l.map f = l := by
  induction l with
  | nil => rfl
  | cons c t ih =>
      simp only [List.map_cons, h c (List.mem_cons_self c t), List.cons.injEq, true_and]
      exact ih fun x hx => h x (List.mem_cons_of_mem c hx)

theorem readSign_minus (r : List Char) : readSign ('-' :: r) = (true, r) := by
  simp [readSign]

theorem readSign_digit {c : Char} (h : c.isDigit = true) (r : List Char) :
    readSign (c :: r) = (false, c :: r) := by
  simp [readSign, (digit_untouched h).2.2.2.2.2.1, (digit_untouched h).2.2.2.2.2.2]

/-- `float` on a nonempty all-digit string, optionally negated. -/
theorem pyFloat_digits {ds : List Char} (h : ∀ c ∈ ds, c.isDigit = true) (hne : ds ≠ []) :
    pyFloat ds = some (digitsVal ds) ∧ pyFloat ('-' :: ds) = some (-(digitsVal ds : ℚ)) := by
  obtain ⟨c, tl, rfl⟩ : ∃ c tl, ds = c :: tl := by
    cases ds with
    | nil => exact absurd rfl hne
    | cons c tl => exact ⟨c, tl, rfl⟩
  have hstrip : pyStrip (c :: tl) = c :: tl :=
    pyStrip_eq_self_of fun x hx => isPySpace_eq_false_of_digit (h x hx)
  have hstrip2 : pyStrip ('-' :: c :: tl) = '-' :: c :: tl := by
    refine pyStrip_eq_self_of fun x hx => ?_
    rcases List.mem_cons.mp hx with rfl | hx
    · rfl
    · exact isPySpace_eq_false_of_digit (h x hx)
  have htake : (c :: tl).takeWhile Char.isDigit = c :: tl := takeWhile_eq_self_of h
  have hdrop : (c :: tl).dropWhile Char.isDigit = [] := dropWhile_eq_nil_of h
  constructor
  · simp [pyFloat, hstrip, readSign_digit (h c (List.mem_cons_self c tl)), htake, hdrop,
      digitsVal]
  · simp [pyFloat, hstrip2, readSign_minus, htake, hdrop, digitsVal]

/-- Evaluate `safe_float` on a nonempty string whose cleaned form
parses. -/
theorem safe_float_str_eval {w : List Char} (hw : w ≠ []) {q : ℚ}
    (h : pyFloat (pyStrip (moneyClean w)) = some q) :
    safe_float (JVal.str w) = q := by
  simp [safe_float, safe_float_try, hw, h]

/-- The replace chain on the claim's grammar: commas vanish, the
currency sign vanishes, parentheses become a leading minus. -/
theorem moneyClean_grammar (ds cur : List Char) (par : Bool)
    (hds : ∀ c ∈ ds, c.isDigit = true ∨ c = ',')
    (hcur : cur = [] ∨ cur = ['₹'] ∨ cur = ['$']) :
    moneyClean (parWrap par (cur ++ ds)) =
      (if par then ['-'] else []) ++ ds.filter Char.isDigit := by
  have hF1 : ds.filter (fun c => !decide (c = ',')) = ds.filter Char.isDigit := by
    refine List.filter_congr fun c hc => ?_
    rcases hds c hc with hd | rfl
    · simp [hd, (digit_untouched hd).1]
    · simp
  have hdsd : ∀ c ∈ ds.filter Char.isDigit, c.isDigit = true :=
    fun c hc => (List.mem_filter.mp hc).2
  have hA : (ds.filter Char.isDigit).filter (fun c => !decide (c = '₹')) = ds.filter Char.isDigit :=
    List.filter_eq_self.mpr fun c hc => by simp [(digit_untouched (hdsd c hc)).2.1]
  have hB : (ds.filter Char.isDigit).filter (fun c => !decide (c = '$')) = ds.filter Char.isDigit :=
    List.filter_eq_self.mpr fun c hc => by simp [(digit_untouched (hdsd c hc)).2.2.1]
  have hM : (ds.filter Char.isDigit).map (fun c => if c = '(' then '-' else c) =
      ds.filter Char.isDigit :=
    map_eq_self_of fun c hc => by simp [(digit_untouched (hdsd c hc)).2.2.2.1]
  have hC : (ds.filter Char.isDigit).filter (fun c => !decide (c = ')')) = ds.filter Char.isDigit :=
    List.filter_eq_self.mpr fun c hc => by simp [(digit_untouched (hdsd c hc)).2.2.2.2.1]
  rcases hcur with rfl | rfl | rfl <;> cases par <;>
    simp [moneyClean, parWrap, List.filter_append, List.map_append, hF1, hA, hB, hM, hC,
      -List.filter_filter]

/-- C2: on every string made of digits with optional comma thousands
separators, an optional `₹` or `$` prefix, and optional enclosing
parentheses, `safe_float` (the spec's `normalize_number`) returns the
numeric value of the digits with separators and currency symbols
removed, negated when parenthesized; and `None`, `""` and a non-numeric
string such as `"not a number"` all normalize to `0.0`. -/
theorem safe_float_locale_grammar (ds cur : List Char) (par : Bool)
    (hds : ∀ c ∈ ds, c.isDigit = true ∨ c = ',')
    (hdig : ∃ c ∈ ds, c.isDigit = true)
    (hcur : cur = [] ∨ cur = ['₹'] ∨ cur = ['$']) :
    safe_float (JVal.str (parWrap par (cur ++ ds))) =
      (if par then -1 else 1) * (digitsVal (ds.filter Char.isDigit) : ℚ) ∧
    safe_float JVal.null = 0 ∧ safe_float (JVal.str []) = 0 ∧
    safe_float (JVal.str "not a number".data) = 0 := by
  refine ⟨?_, by decide, by decide, by decide⟩
  have hdsd : ∀ c ∈ ds.filter Char.isDigit, c.isDigit = true :=
    fun c hc => (List.mem_filter.mp hc).2
  have hdne : ds.filter Char.isDigit ≠ [] := by
    obtain ⟨c, hc, hdc⟩ := hdig
    intro hnil
    have hmem : c ∈ ds.filter Char.isDigit := List.mem_filter.mpr ⟨hc, hdc⟩
    rw [hnil] at hmem
    exact absurd hmem (List.not_mem_nil c)
  have hw : parWrap par (cur ++ ds) ≠ [] := by
    have hds0 : ds ≠ [] := by
      obtain ⟨c, hc, _⟩ := hdig
      intro hnil; rw [hnil] at hc; exact absurd hc (List.not_mem_nil c)
    cases par <;> rcases hcur with rfl | rfl | rfl <;> simp [parWrap, hds0]
  have hchain := moneyClean_grammar ds cur par hds hcur
  have hpf := pyFloat_digits hdsd hdne
  cases par
  · have hstrip : pyStrip (ds.filter Char.isDigit) = ds.filter Char.isDigit :=
      pyStrip_eq_self_of fun x hx => isPySpace_eq_false_of_digit (hdsd x hx)
    rw [safe_float_str_eval hw (by rw [hchain]; simpa [hstrip] using hpf.1)]
    simp
  · have hstrip : pyStrip ('-' :: ds.filter Char.isDigit) = '-' :: ds.filter Char.isDigit := by
      refine pyStrip_eq_self_of fun x hx => ?_
      rcases List.mem_cons.mp hx with rfl | hx
      · rfl
      · exact isPySpace_eq_false_of_digit (hdsd x hx)
    rw [safe_float_str_eval hw (by rw [hchain]; simpa [hstrip] using hpf.2)]
    simp

theorem safe_float_locale_grammar_witness :
    safe_float (JVal.str "(₹1,200)".data) = -1200 := by
  have h := (safe_float_locale_grammar "1,200".data ['₹'] true (by decide) ⟨'1', by decide⟩
    (Or.inr (Or.inl rfl))).1
  have harg : parWrap true (['₹'] ++ "1,200".data) = "(₹1,200)".data := by decide
  rw [harg] at h
  have hval : digitsVal (List.filter Char.isDigit "1,200".data) = 1200 := by decide
  rw [h, hval]
  norm_num

/-! ## C1: the item loop drops exactly the zero-amount items -/

/-- An item the loop skipped is exactly one whose `safe_float`-normalized
amount is zero. -/
theorem normItem_none_inv {it : JVal} (h : normItem it = .ok none) :
    safe_float (itemGet it "item_amount".data) = 0 := by
  cases it with
  | obj fields =>
      rw [itemGet]
      by_cases hz : safe_float (lookupD fields "item_amount".data) = 0
      · exact hz
      · rw [normItem, if_neg hz] at h
        rcases hp : pyOrStr (lookupD fields "item_name".data) with _ | s <;> rw [hp] at h <;>
          simp at h
  | _ => simp [normItem] at h

/-- An item the loop kept has nonzero normalized amount and is emitted
as its total normalization `normOk`. -/
theorem normItem_some_inv {it : JVal} {ni : NormItem} (h : normItem it = .ok (some ni)) :
    safe_float (itemGet it "item_amount".data) ≠ 0 ∧ ni = normOk it := by
  cases it with
  | obj fields =>
      by_cases hz : safe_float (lookupD fields "item_amount".data) = 0
      · rw [normItem, if_pos hz] at h
        simp at h
      · rw [normItem, if_neg hz] at h
        rcases hp : pyOrStr (lookupD fields "item_name".data) with _ | s <;> rw [hp] at h
        · simp at h
        · refine ⟨by rw [itemGet]; exact hz, ?_⟩
          have hni := Option.some.inj (Except.ok.inj h)
          rw [← hni, normOk]
          simp [itemGet, hp]
  | _ => simp [normItem] at h

/-- C1: whenever the item-normalization loop succeeds, its output is
exactly the input sequence restricted (in order, without re-sorting) to
the items whose `safe_float`-normalized `item_amount` is nonzero, each
mapped through the normalization `normOk`; every zero-amount item is
dropped and every other item is retained. -/
theorem normalize_items_filter (items : List JVal) (out : List NormItem)
    (h : normalize_items items = .ok out) :
    out = (items.filter fun it =>
      decide (safe_float (itemGet it "item_amount".data) ≠ 0)).map normOk := by
  induction items generalizing out with
  | nil =>
      simp only [normalize_items] at h
      cases h
      simp
  | cons it rest ih =>
      simp only [normalize_items] at h
      rcases hni : normItem it with e | oni <;> rw [hni] at h
      · exact absurd h (by simp)
      · rcases oni with _ | ni
        · have hz := normItem_none_inv hni
          rw [List.filter_cons_of_neg (by simp [hz])]
          exact ih _ h
        · rcases hrest : normalize_items rest with e | tl <;> rw [hrest] at h
          · exact absurd h (by simp)
          · obtain ⟨hnz, hnieq⟩ := normItem_some_inv hni
            cases h
            rw [List.filter_cons_of_pos (by simp [hnz]), List.map_cons, ← hnieq,
              ← ih _ hrest]

theorem normalize_items_filter_witness :
    ([⟨"A".data, 5, 0, 0⟩] : List NormItem) =
      (c1items.filter fun it =>
        decide (safe_float (itemGet it "item_amount".data) ≠ 0)).map normOk :=
  normalize_items_filter c1items [⟨"A".data, 5, 0, 0⟩] (by with_unfolding_all decide)

/-! ## C10: missing page fields are defaulted, pages are never dropped -/

theorem normalize_pages_length :
    ∀ pages outs cnt, normalize_pages pages = .ok (outs, cnt) → outs.length = pages.length := by
  intro pages
  induction pages with
  | nil => intro outs cnt h; cases h; rfl
  | cons p rest ih =>
      intro outs cnt h
      simp only [normalize_pages] at h
      rcases hp : normalize_page p with e | out <;> rw [hp] at h
      · exact absurd h (by simp)
      · rcases hrest : normalize_pages rest with e | ⟨outs', cnt'⟩ <;> rw [hrest] at h
        · exact absurd h (by simp)
        · cases h
          simp [ih outs' cnt' hrest]

/-- C10: a parsed page object lacking a `page_type` key is emitted with
`page_type = "Bill Detail"`; one lacking a `bill_items` key is emitted
(successfully, never dropped) with an empty `bill_items` list; and the
page-normalization loop always emits exactly one output page per input
page. -/
theorem page_defaults (fields : List (List Char × JVal)) :
    (lookupKey fields "page_type".data = none →
      ∀ out, normalize_page (.obj fields) = .ok out →
        out.page_type = .str "Bill Detail".data) ∧
    (lookupKey fields "bill_items".data = none →
      ∃ out, normalize_page (.obj fields) = .ok out ∧ out.bill_items = []) ∧
    (∀ pages outs cnt, normalize_pages pages = .ok (outs, cnt) → outs.length = pages.length) := by
  refine ⟨?_, ?_, normalize_pages_length⟩
  · intro hlk out h
    simp only [normalize_page, hlk, Option.getD_none] at h
    split at h
    all_goals first
      | (cases h; rfl)
      | simp at h
      | (split at h
         · cases h; rfl
         · simp at h)
  · intro hlk
    refine ⟨⟨pyStr ((lookupKey fields "page_no".data).getD (.str [])),
      (lookupKey fields "page_type".data).getD (.str "Bill Detail".data), []⟩, ?_, rfl⟩
    simp only [normalize_page, hlk, Option.getD_none]
    rfl

theorem page_defaults_witness :
    (⟨[], JVal.str "Bill Detail".data, ([] : List NormItem)⟩ : PageOut).page_type =
      JVal.str "Bill Detail".data :=
  (page_defaults []).1 rfl ⟨[], JVal.str "Bill Detail".data, []⟩ (by with_unfolding_all decide)

/-! ## Shared inversion lemmas for the page loop and the assembler -/

theorem normalize_pages_count :
    ∀ pages outs cnt, normalize_pages pages = .ok (outs, cnt) →
      cnt = (outs.map fun p => p.bill_items.length).sum := by
  intro pages
  induction pages with
  | nil => intro outs cnt h; cases h; rfl
  | cons p rest ih =>
      intro outs cnt h
      simp only [normalize_pages] at h
      rcases hp : normalize_page p with e | out <;> rw [hp] at h
      · exact absurd h (by simp)
      · rcases hrest : normalize_pages rest with e | ⟨outs', cnt'⟩ <;> rw [hrest] at h
        · exact absurd h (by simp)
        · cases h
          simp [ih outs' cnt' hrest]

theorem normalize_pages_get :
    ∀ pages outs cnt, normalize_pages pages = .ok (outs, cnt) →
      ∀ j (h1 : j < pages.length) (h2 : j < outs.length),
        normalize_page (pages.get ⟨j, h1⟩) = .ok (outs.get ⟨j, h2⟩) := by
  intro pages
  induction pages with
  | nil => intro outs cnt h j h1 h2; exact absurd h1 (by simp)
  | cons p rest ih =>
      intro outs cnt h j h1 h2
      simp only [normalize_pages] at h
      rcases hp : normalize_page p with e | out <;> rw [hp] at h
      · exact absurd h (by simp)
      · rcases hrest : normalize_pages rest with e | ⟨outs', cnt'⟩ <;> rw [hrest] at h
        · exact absurd h (by simp)
        · cases h
          cases j with
          | zero => simpa using hp
          | succ j =>
              exact ih outs' cnt' hrest j (Nat.lt_of_succ_lt_succ h1)
                (Nat.lt_of_succ_lt_succ h2)

theorem run_pages_length_get :
    ∀ replies k ps i o t, run_pages replies k = .ok (ps, i, o, t) →
      ps.length = replies.length ∧
      ∀ j (h1 : j < replies.length) (h2 : j < ps.length),
        process_page ((replies.get ⟨j, h1⟩).text) (k + j) = .ok (ps.get ⟨j, h2⟩) := by
  intro replies
  induction replies with
  | nil =>
      intro k ps i o t h
      cases h
      exact ⟨rfl, fun j h1 h2 => absurd h1 (by simp)⟩
  | cons r rest ih =>
      intro k ps i o t h
      simp only [run_pages] at h
      rcases hp : process_page r.text k with e | p <;> rw [hp] at h
      · exact absurd h (by simp)
      · rcases hrest : run_pages rest (k + 1) with e | ⟨ps', i', o', t'⟩ <;> rw [hrest] at h
        · exact absurd h (by simp)
        · cases h
          obtain ⟨hlen, hget⟩ := ih (k + 1) ps' i' o' t' hrest
          refine ⟨by simp [hlen], ?_⟩
          intro j h1 h2
          cases j with
          | zero => simpa using hp
          | succ j =>
              have := hget j (Nat.lt_of_succ_lt_succ h1) (Nat.lt_of_succ_lt_succ h2)
              simpa [Nat.add_assoc, Nat.add_comm 1 j] using this

theorem run_pages_tokens :
    ∀ replies k ps i o t, run_pages replies k = .ok (ps, i, o, t) →
      i = (replies.map fun r => r.usage.input_tokens).sum ∧
      o = (replies.map fun r => r.usage.output_tokens).sum ∧
      t = (replies.map fun r => r.usage.total_tokens).sum := by
  intro replies
  induction replies with
  | nil => intro k ps i o t h; cases h; simp
  | cons r rest ih =>
      intro k ps i o t h
      simp only [run_pages] at h
      rcases hp : process_page r.text k with e | p <;> rw [hp] at h
      · exact absurd h (by simp)
      · rcases hrest : run_pages rest (k + 1) with e | ⟨ps', i', o', t'⟩ <;> rw [hrest] at h
        · exact absurd h (by simp)
        · cases h
          obtain ⟨hi, ho, ht⟩ := ih (k + 1) ps' i' o' t' hrest
          simp [hi, ho, ht]

/-- Inversion of a success of the whole endpoint into its two stages. -/
theorem extract_success_inv {replies tu outs cnt}
    (h : extract_bill_data replies = .success tu outs cnt) :
    ∃ ps i o t, run_pages replies 1 = .ok (ps, i, o, t) ∧
      normalize_pages ps = .ok (outs, cnt) ∧
      tu = { input_tokens := i, output_tokens := o, total_tokens := t } := by
  unfold extract_bill_data at h
  split at h
  · exact absurd h (by simp)
  · split at h
    · exact absurd h (by simp)
    · cases h
      exact ⟨_, _, _, _, by assumption, by assumption, rfl⟩

/-! ## C7: the item count is the sum of the per-page item counts -/

/-- C7: in every assembled success result, `total_item_count` equals
the sum of `len(bill_items)` over the pages of the output
`pagewise_line_items` (counted after normalization and zero-amount
dropping). -/
theorem total_item_count_sum (replies : List ModelReply) (tu : TokenUsage)
    (outs : List PageOut) (cnt : Nat)
    (h : extract_bill_data replies = .success tu outs cnt) :
    cnt = (outs.map fun p => p.bill_items.length).sum := by
  obtain ⟨ps, i, o, t, _, hn, _⟩ := extract_success_inv h
  exact normalize_pages_count ps outs cnt hn

theorem total_item_count_sum_witness :
    (1 : Nat) = (cpages.map fun p => p.bill_items.length).sum :=
  total_item_count_sum creplies ⟨11, 22, 33⟩ cpages 1 (by with_unfolding_all decide)

/-! ## C8: token-usage totals are componentwise sums over the pages -/

/-- C8: in every success payload, the `token_usage` totals are the
componentwise sums of the per-page-call token-usage triples accumulated
across all pages of the document. -/
theorem token_usage_totals (replies : List ModelReply) (tu : TokenUsage)
    (outs : List PageOut) (cnt : Nat)
    (h : extract_bill_data replies = .success tu outs cnt) :
    tu.input_tokens = (replies.map fun r => r.usage.input_tokens).sum ∧
    tu.output_tokens = (replies.map fun r => r.usage.output_tokens).sum ∧
    tu.total_tokens = (replies.map fun r => r.usage.total_tokens).sum := by
  obtain ⟨ps, i, o, t, hr, _, htu⟩ := extract_success_inv h
  obtain ⟨hi, ho, ht⟩ := run_pages_tokens replies 1 ps i o t hr
  rw [htu]
  exact ⟨hi, ho, ht⟩

theorem token_usage_totals_witness :
    (11 : Nat) = (creplies.map fun r => r.usage.input_tokens).sum ∧
    (22 : Nat) = (creplies.map fun r => r.usage.output_tokens).sum ∧
    (33 : Nat) = (creplies.map fun r => r.usage.total_tokens).sum :=
  token_usage_totals creplies ⟨11, 22, 33⟩ cpages 1 (by with_unfolding_all decide)

/-! ## C5: sequential pages, 1-based reindexing -/

theorem lookupKey_map_set (k : List Char) (v : JVal) :
    ∀ f : List (List Char × JVal), (f.any fun p => decide (p.1 = k)) = true →
      lookupKey (f.map fun p => if p.1 = k then (k, v) else p) k = some v := by
  intro f
  induction f with
  | nil => intro h; exact absurd h (by simp)
  | cons p rest ih =>
      intro hany
      obtain ⟨k', v'⟩ := p
      simp only [List.map_cons]
      show lookupKey ((if k' = k then (k, v) else (k', v')) ::
        rest.map fun p => if p.1 = k then (k, v) else p) k = some v
      by_cases hk : k' = k
      · rw [if_pos hk]
        show (if k = k then some v
          else lookupKey (rest.map fun p => if p.1 = k then (k, v) else p) k) = some v
        rw [if_pos rfl]
      · rw [if_neg hk]
        show (if k' = k then some v'
          else lookupKey (rest.map fun p => if p.1 = k then (k, v) else p) k) = some v
        rw [if_neg hk]
        rcases (by simpa only [List.any_cons, Bool.or_eq_true] using hany :
            decide ((k', v').1 = k) = true ∨ (rest.any fun p => decide (p.1 = k)) = true) with
          h1 | h2
        · exact absurd (of_decide_eq_true h1) hk
        · exact ih h2

theorem lookupKey_append_set (k : List Char) (v : JVal) :
    ∀ f : List (List Char × JVal), lookupKey f k = none →
      lookupKey (f ++ [(k, v)]) k = some v := by
  intro f
  induction f with
  | nil =>
      intro _
      show (if k = k then some v else lookupKey [] k) = some v
      rw [if_pos rfl]
  | cons p rest ih =>
      intro hnone
      obtain ⟨k', v'⟩ := p
      have hstep : lookupKey ((k', v') :: rest) k =
          (if k' = k then some v' else lookupKey rest k) := rfl
      rw [hstep] at hnone
      by_cases hk : k' = k
      · rw [if_pos hk] at hnone
        exact absurd hnone (by simp)
      · rw [if_neg hk] at hnone
        show (if k' = k then some v' else lookupKey (rest ++ [(k, v)]) k) = some v
        rw [if_neg hk]
        exact ih hnone

theorem lookupKey_any_none :
    ∀ (f : List (List Char × JVal)) (k : List Char),
      (f.any fun p => decide (p.1 = k)) = false → lookupKey f k = none := by
  intro f
  induction f with
  | nil => intro k _; rfl
  | cons p rest ih =>
      intro k hany
      obtain ⟨k', v'⟩ := p
      obtain ⟨h1, h2⟩ := Bool.or_eq_false_iff.mp (by simpa only [List.any_cons] using hany)
      have hk : ¬ k' = k := by simpa using h1
      show (if k' = k then some v' else lookupKey rest k) = none
      rw [if_neg hk]
      exact ih k h2

theorem lookupKey_objInsert (f : List (List Char × JVal)) (k : List Char) (v : JVal) :
    lookupKey (objInsert f k v) k = some v := by
  unfold objInsert
  split
  · rename_i hany
    exact lookupKey_map_set k v f hany
  · rename_i hany
    exact lookupKey_append_set k v f
      (lookupKey_any_none f k (Bool.eq_false_iff.mpr hany))

theorem process_page_sets_no {text : List Char} {idx : Nat} {p : JVal}
    (h : process_page text idx = .ok p) :
    ∃ f, p = .obj f ∧ lookupKey f "page_no".data = some (.str (toString idx).data) := by
  unfold process_page at h
  rcases hp : parse_model_json text with e | parsed <;> rw [hp] at h
  · simp at h
  · rcases parsed with _ | _ | _ | _ | _ | fields
    · simp at h
    · simp at h
    · simp at h
    · simp at h
    · simp at h
    · rcases hlk : lookupKey fields "pagewise_line_items".data with _ | w
      · simp [hlk] at h
      · rcases w with _ | _ | _ | _ | xs | _
        · simp [hlk] at h
        · simp [hlk] at h
        · simp [hlk] at h
        · simp [hlk] at h
        · rcases xs with _ | ⟨x, xs⟩
          · simp [hlk] at h
          · rcases x with _ | _ | _ | _ | _ | xf
            · simp [hlk] at h
            · simp [hlk] at h
            · simp [hlk] at h
            · simp [hlk] at h
            · simp [hlk] at h
            · simp only [hlk, Except.ok.injEq] at h
              subst h
              exact ⟨_, rfl, lookupKey_objInsert _ _ _⟩
        · simp [hlk] at h

theorem normalize_page_no {f : List (List Char × JVal)} {out : PageOut} {s : List Char}
    (h : normalize_page (.obj f) = .ok out)
    (hs : lookupKey f "page_no".data = some (.str s)) : out.page_no = s := by
  simp only [normalize_page, hs, Option.getD_some] at h
  split at h
  all_goals first
    | (cases h; rfl)
    | simp at h
    | (split at h
       · cases h; rfl
       · simp at h)

/-- C5: in every success, page `i` of the document appears at index
`i - 1` of the output `pagewise_line_items` (one output page per reply,
in order, never reordered or merged), its `page_no` is the stringified
caller-supplied 1-based index regardless of whatever `page_no` the
model emitted, and the entry is exactly the result of processing reply
`i` through the repair parse, reindexing, and normalization. -/
theorem pagewise_order (replies : List ModelReply) (tu : TokenUsage)
    (pages : List PageOut) (cnt : Nat)
    (h : extract_bill_data replies = .success tu pages cnt) :
    pages.length = replies.length ∧
    ∀ i (h1 : i < replies.length) (h2 : i < pages.length),
      (pages.get ⟨i, h2⟩).page_no = (toString (i + 1)).data ∧
      ∃ p, process_page (replies.get ⟨i, h1⟩).text (i + 1) = .ok p ∧
        normalize_page p = .ok (pages.get ⟨i, h2⟩) := by
  obtain ⟨ps, i, o, t, hr, hn, _⟩ := extract_success_inv h
  obtain ⟨hplen, hpget⟩ := run_pages_length_get replies 1 ps i o t hr
  have hnlen := normalize_pages_length ps pages cnt hn
  refine ⟨by omega, ?_⟩
  intro j h1 h2
  have hj : j < ps.length := by omega
  have hproc := hpget j h1 hj
  rw [Nat.add_comm 1 j] at hproc
  have hnorm := normalize_pages_get ps pages cnt hn j hj h2
  obtain ⟨f, hf, hlk⟩ := process_page_sets_no hproc
  rw [hf] at hnorm
  exact ⟨normalize_page_no hnorm hlk, ps.get ⟨j, hj⟩, hproc, by rw [hf]; exact hnorm⟩

theorem pagewise_order_witness :
    (cpages.get ⟨0, by norm_num [cpages]⟩).page_no = (toString 1).data :=
  ((pagewise_order creplies ⟨11, 22, 33⟩ cpages 1 (by with_unfolding_all decide)).2 0
    (by norm_num [creplies]) (by norm_num [cpages])).1

/-! ## C6: any stage failure yields the atomic failure shape -/

theorem parse_model_json_error_ne {t e} (h : parse_model_json t = .error e) : e ≠ [] := by
  simp only [parse_model_json] at h
  split at h
  · exact absurd h (by simp)
  · split at h
    · exact absurd h (by simp)
    · cases h
      decide

theorem process_page_error_ne {t idx e} (h : process_page t idx = .error e) : e ≠ [] := by
  unfold process_page at h
  rcases hp : parse_model_json t with e' | parsed <;> rw [hp] at h
  · replace h : (Except.error e' : Except (List Char) JVal) = Except.error e := h
    cases h
    exact parse_model_json_error_ne hp
  · have hIdx : ("TypeError: indices must be integers".data : List Char) = e → e ≠ [] := by
      rintro rfl; decide
    rcases parsed with _ | _ | _ | _ | _ | fields
    · exact hIdx (Except.error.inj h)
    · exact hIdx (Except.error.inj h)
    · exact hIdx (Except.error.inj h)
    · exact hIdx (Except.error.inj h)
    · exact hIdx (Except.error.inj h)
    · rcases hlk : lookupKey fields "pagewise_line_items".data with _ | w
      · simp only [hlk] at h
        have := Except.error.inj h
        rintro rfl
        simp at this
      · rcases w with _ | _ | _ | _ | xs | _
        · simp only [hlk] at h
          have := Except.error.inj h
          rintro rfl
          simp at this
        · simp only [hlk] at h
          have := Except.error.inj h
          rintro rfl
          simp at this
        · simp only [hlk] at h
          have := Except.error.inj h
          rintro rfl
          simp at this
        · simp only [hlk] at h
          have := Except.error.inj h
          rintro rfl
          simp at this
        · rcases xs with _ | ⟨x, xs⟩
          · simp only [hlk] at h
            have := Except.error.inj h
            rintro rfl
            simp at this
          · rcases x with _ | _ | _ | _ | _ | xf
            · simp only [hlk] at h
              have := Except.error.inj h
              rintro rfl
              simp at this
            · simp only [hlk] at h
              have := Except.error.inj h
              rintro rfl
              simp at this
            · simp only [hlk] at h
              have := Except.error.inj h
              rintro rfl
              simp at this
            · simp only [hlk] at h
              have := Except.error.inj h
              rintro rfl
              simp at this
            · simp only [hlk] at h
              have := Except.error.inj h
              rintro rfl
              simp at this
            · simp only [hlk] at h
              exact absurd h (by simp)
        · simp only [hlk] at h
          have := Except.error.inj h
          rintro rfl
          simp at this

theorem run_pages_error_ne :
    ∀ replies k e, run_pages replies k = .error e → e ≠ [] := by
  intro replies
  induction replies with
  | nil => intro k e h; simp [run_pages] at h
  | cons r rest ih =>
      intro k e h
      simp only [run_pages] at h
      rcases hp : process_page r.text k with e' | p <;> rw [hp] at h
      · cases h
        exact process_page_error_ne hp
      · rcases hrest : run_pages rest (k + 1) with e' | q <;> rw [hrest] at h
        · cases h
          exact ih (k + 1) e hrest
        · obtain ⟨ps', i', o', t'⟩ := q
          exact absurd h (by simp)

theorem process_page_parse_fail {t : List Char} (k : Nat)
    (h : (parse_model_json t).isOk = false) : ∃ e, process_page t k = .error e := by
  unfold process_page
  rcases hp : parse_model_json t with e | v
  · exact ⟨e, rfl⟩
  · rw [hp] at h
    simp [Except.isOk, Except.toBool] at h

theorem run_pages_parse_fail :
    ∀ replies k, (∃ r ∈ replies, (parse_model_json r.text).isOk = false) →
      ∃ e, run_pages replies k = .error e := by
  intro replies
  induction replies with
  | nil => rintro k ⟨r, hr, _⟩; exact absurd hr (by simp)
  | cons r rest ih =>
      rintro k ⟨r', hr', hfail⟩
      rcases hp : process_page r.text k with e | p
      · exact ⟨e, by simp [run_pages, hp]⟩
      · rcases List.mem_cons.mp hr' with rfl | hmem
        · obtain ⟨e, he⟩ := process_page_parse_fail k hfail
          rw [hp] at he
          exact absurd he (by simp)
        · obtain ⟨e, he⟩ := ih (k + 1) ⟨r', hmem, hfail⟩
          exact ⟨e, by simp [run_pages, hp, he]⟩

/-- C6: if any page's model response has no recoverable JSON (the
repair parse fails), the whole request returns the failure shape: a
`failure` result (which by construction carries no `data`) with a
nonempty error string; no partial result is ever mixed with a failure
flag. -/
theorem failure_atomicity (replies : List ModelReply)
    (h : ∃ r ∈ replies, (parse_model_json r.text).isOk = false) :
    isNonemptyFailure (extract_bill_data replies) = true := by
  obtain ⟨e, he⟩ := run_pages_parse_fail replies 1 h
  have hne := run_pages_error_ne replies 1 e he
  unfold extract_bill_data
  rw [he]
  simpa [isNonemptyFailure] using hne

theorem failure_atomicity_witness :
    isNonemptyFailure (extract_bill_data [⟨"no braces".data, ⟨0, 0, 0⟩⟩]) = true :=
  failure_atomicity [⟨"no braces".data, ⟨0, 0, 0⟩⟩]
    ⟨⟨"no braces".data, ⟨0, 0, 0⟩⟩, List.mem_cons_self _ _, by with_unfolding_all decide⟩

/-! ## C4: failure on inputs without a recoverable brace span

The claim as frozen — "for every input containing no `{`/`}` pair the
repair parser fails" — is false on the code: a brace-free input that is
itself valid JSON, such as `5`, succeeds in the direct-parse tier.  The
counterexample and the amended statement follow. -/

theorem replaceSub_nil_subset (pat : List Char) :
    ∀ l, ∀ c ∈ replaceSub pat [] l, c ∈ l := by
  have key : ∀ n l, l.length ≤ n → ∀ c ∈ replaceSub pat [] l, c ∈ l := by
    intro n
    induction n with
    | zero =>
        intro l hl c hc
        have : l = [] := List.length_eq_zero.mp (Nat.le_zero.mp hl)
        subst this
        simpa [replaceSub] using hc
    | succ n ih =>
        intro l hl c hc
        cases l with
        | nil => simpa [replaceSub] using hc
        | cons a rest =>
            rw [replaceSub] at hc
            split at hc
            · rename_i hcond
              simp only [List.nil_append] at hc
              have hlen : ((a :: rest).drop pat.length).length ≤ n := by
                have hp : 0 < pat.length := List.length_pos.mpr hcond.1
                simp only [List.length_drop, List.length_cons]
                simp only [List.length_cons] at hl
                omega
              exact ((a :: rest).drop_suffix pat.length).sublist.subset
                (ih _ hlen c hc)
            · rcases List.mem_cons.mp hc with rfl | hc'
              · exact List.mem_cons_self _ _
              · exact List.mem_cons_of_mem a
                  (ih rest (by simp only [List.length_cons] at hl; omega) c hc')
  exact fun l => key l.length l (Nat.le_refl _)

theorem pyStrip_subset (l : List Char) : ∀ c ∈ pyStrip l, c ∈ l := by
  intro c hc
  unfold pyStrip dropEndWhile at hc
  have h1 := (List.dropWhile_sublist (l := (List.dropWhile isPySpace l).reverse)
    (p := isPySpace)).subset (List.mem_reverse.mp hc)
  have h2 := List.mem_reverse.mp h1
  exact (List.dropWhile_sublist (l := l) (p := isPySpace)).subset h2

theorem stripJsonTag_subset (l : List Char) : ∀ c ∈ stripJsonTag l, c ∈ l := by
  intro c hc
  unfold stripJsonTag at hc
  split at hc
  · split at hc
    · simp_all
    · exact hc
  · exact hc

theorem fence_strip_subset (t : List Char) : ∀ c ∈ fence_strip t, c ∈ t := by
  intro c hc
  unfold fence_strip at hc
  have h1 := pyStrip_subset _ c hc
  have h2 := stripJsonTag_subset _ c h1
  have h3 := pyStrip_subset _ c h2
  have h4 := replaceSub_nil_subset _ _ c h3
  have h5 := replaceSub_nil_subset _ _ c h4
  exact pyStrip_subset _ c h5

theorem findIdx?_none_of_not_mem {l : List Char} {c : Char} (h : c ∉ l) :
    l.findIdx? (· == c) = none :=
  List.findIdx?_eq_none_iff.mpr fun x hx => by
    simp only [beq_eq_false_iff_ne, ne_eq]
    rintro rfl
    exact h hx

theorem findIdx?_some_lt {l : List Char} {p : Char → Bool} {i : Nat}
    (h : l.findIdx? p = some i) : i < l.length :=
  (List.findIdx?_eq_some_iff_findIdx_eq.mp h).1

theorem findIdx?_zero_head {l : List Char} {p : Char → Bool}
    (h : l.findIdx? p = some 0) : ∃ x xs, l = x :: xs ∧ p x = true := by
  obtain ⟨hlt, hp, _⟩ := List.findIdx?_eq_some_iff_getElem.mp h
  cases l with
  | nil => simp at hlt
  | cons a rest => exact ⟨a, rest, rfl, by simpa using hp⟩

theorem pySlice_zero (l : List Char) (a : ℤ) : pySlice l a 0 = [] := by
  simp only [pySlice]
  have h1 : ¬ ((0 : ℤ) < 0) := by omega
  rw [if_neg h1]
  have h2 : (min (0 : ℤ) (l.length : ℤ)).toNat = 0 := by
    have : (0 : ℤ) ≤ l.length := by positivity
    omega
  rw [h2]
  simp

theorem drop_pred_getLast {l : List Char} {c : Char}
    (hne : l ≠ []) (hlast : l.reverse.head? = some c) :
    l.drop (l.length - 1) = [c] := by
  induction l with
  | nil => exact absurd rfl hne
  | cons a rest ih =>
      cases hr : rest with
      | nil =>
          subst hr
          simpa using hlast
      | cons b t =>
          subst hr
          have hlast' : (b :: t).reverse.head? = some c := by
            rw [List.reverse_cons] at hlast
            rwa [List.head?_append_of_ne_nil] at hlast
            simp
          have := ih (by simp) hlast'
          simpa [Nat.succ_sub_one] using this

/-- With no `{` in the text, the brace slice is empty or the single
closing brace. -/
theorem slice_brace_cases {raw : List Char} (h : '\x7b' ∉ raw) :
    pySlice raw (pyFindChar raw '\x7b') (pyRfindChar raw '\x7d' + 1) = [] ∨
    pySlice raw (pyFindChar raw '\x7b') (pyRfindChar raw '\x7d' + 1) = ['\x7d'] := by
  have hfind : pyFindChar raw '\x7b' = -1 := by
    unfold pyFindChar
    rw [findIdx?_none_of_not_mem h]
  rcases hr : raw.reverse.findIdx? (· == '\x7d') with _ | i
  · left
    have : pyRfindChar raw '\x7d' = -1 := by unfold pyRfindChar; rw [hr]
    rw [this]
    exact pySlice_zero raw _
  · have hi : i < raw.length := by
      have := findIdx?_some_lt hr
      simpa using this
    have hrf : pyRfindChar raw '\x7d' = (raw.length : ℤ) - 1 - (i : ℤ) := by
      unfold pyRfindChar; rw [hr]
    rw [hrf, hfind]
    have hn1 : (1 : Nat) ≤ raw.length := by omega
    cases Nat.eq_zero_or_pos i with
    | inl hzero =>
        subst hzero
        right
        obtain ⟨x, xs, hx, hpx⟩ := findIdx?_zero_head hr
        have hlastc : raw.reverse.head? = some '\x7d' := by
          rw [hx]
          simp only [List.head?_cons, Option.some.injEq]
          simpa using hpx
        simp only [pySlice, Nat.cast_zero]
        have ha : ¬ ((raw.length : ℤ) - 1 - 0 + 1 < 0) := by omega
        rw [if_neg ha]
        have hb : (min ((raw.length : ℤ) - 1 - 0 + 1) (raw.length : ℤ)).toNat = raw.length := by
          omega
        rw [hb]
        have hneg : ((-1 : ℤ) < 0) := by omega
        rw [if_pos hneg]
        have ha2 : (max ((raw.length : ℤ) + -1) 0).toNat = raw.length - 1 := by omega
        rw [ha2, List.take_length]
        exact drop_pred_getLast (by intro hh; rw [hh] at hn1; simp at hn1) hlastc
    | inr hpos =>
        left
        simp only [pySlice]
        have ha : ¬ ((raw.length : ℤ) - 1 - (i : ℤ) + 1 < 0) := by omega
        rw [if_neg ha]
        have hb : (min ((raw.length : ℤ) - 1 - (i : ℤ) + 1) (raw.length : ℤ)).toNat =
            raw.length - i := by omega
        rw [hb]
        have hneg : ((-1 : ℤ) < 0) := by omega
        rw [if_pos hneg]
        have ha2 : (max ((raw.length : ℤ) + -1) 0).toNat = raw.length - 1 := by omega
        rw [ha2]
        apply List.drop_eq_nil_of_le
        rw [List.length_take]
        omega

/-- C4 counterexample: the input `5` contains no `{`/`}` pair, yet the
repair parser succeeds with the value `5` instead of failing. -/
theorem no_brace_failure_counterexample :
    ('\x7b' ∉ "5".data ∧ '\x7d' ∉ "5".data) ∧
    parse_model_json "5".data = Except.ok (JVal.num 5) := by
  with_unfolding_all decide

/-- C4 (amended): for every input that contains no `{` or no `}` AND
whose fence-stripped text fails the direct strict-JSON parse, the
repair parser returns no value: the brace-slice retry parse fails too,
and what propagates is its decode error with a nonempty message (the
`json.JSONDecodeError` of the final `json.loads`; the code has no
`MalformedResponseError` and no wrapping raise).  Brace-free inputs
that are themselves valid JSON instead succeed in the direct-parse
tier. -/
theorem no_brace_repair_failure (t : List Char)
    (h1 : jsonParse (fence_strip t) = none)
    (h2 : '\x7b' ∉ t ∨ '\x7d' ∉ t) :
    ∃ e, parse_model_json t = Except.error e ∧ e ≠ [] := by
  simp only [parse_model_json, h1]
  have hcleaned : pySlice (fence_strip t) (pyFindChar (fence_strip t) '\x7b')
      (pyRfindChar (fence_strip t) '\x7d' + 1) = [] ∨
      pySlice (fence_strip t) (pyFindChar (fence_strip t) '\x7b')
      (pyRfindChar (fence_strip t) '\x7d' + 1) = ['\x7d'] := by
    rcases h2 with hb | hb
    · exact slice_brace_cases fun hc => hb (fence_strip_subset t _ hc)
    · have : '\x7d' ∉ fence_strip t := fun hc => hb (fence_strip_subset t _ hc)
      have hrfind : pyRfindChar (fence_strip t) '\x7d' = -1 := by
        unfold pyRfindChar
        rw [findIdx?_none_of_not_mem (by simpa using this)]
      left
      rw [hrfind]
      exact pySlice_zero _ _
  rcases hcleaned with hc | hc <;> rw [hc]
  · have : jsonParse (subCommaClose ']' (subCommaClose '\x7d' (replaceSub ['\x00'] [] []))) =
        none := by with_unfolding_all decide
    rw [this]
    exact ⟨_, rfl, by decide⟩
  · have : jsonParse (subCommaClose ']' (subCommaClose '\x7d'
        (replaceSub ['\x00'] [] ['\x7d']))) = none := by with_unfolding_all decide
    rw [this]
    exact ⟨_, rfl, by decide⟩

theorem no_brace_repair_failure_witness :
    ∃ e, parse_model_json "no braces here".data = Except.error e ∧ e ≠ [] :=
  no_brace_repair_failure "no braces here".data (by with_unfolding_all decide)
    (Or.inl (by decide))

/-! ## C3: idempotence of the repair parse on valid JSON -/

theorem jws_pws {c : Char} (h : isJsonWs c = true) : isPySpace c = true := by
  rcases (by simpa [isJsonWs, or_assoc] using h :
      c = ' ' ∨ c = '\t' ∨ c = '\n' ∨ c = '\r') with rfl | rfl | rfl | rfl <;> rfl

theorem dropWhile_append_all {p : Char → Bool} {a : List Char}
    (h : ∀ c ∈ a, p c = true) (x : List Char) :
    (a ++ x).dropWhile p = x.dropWhile p := by
  induction a with
  | nil => rfl
  | cons c t ih =>
      rw [List.cons_append, List.dropWhile_cons, h c (List.mem_cons_self c t)]
      simp only [if_true]
      exact ih fun y hy => h y (List.mem_cons_of_mem c hy)

theorem dropWhile_decomp (p : Char → Bool) (l : List Char) :
    ∃ a, l = a ++ l.dropWhile p ∧ ∀ c ∈ a, p c = true :=
  ⟨l.takeWhile p, (List.takeWhile_append_dropWhile (p := p) (l := l)).symm,
    fun _ hc => List.mem_takeWhile_imp hc⟩

theorem dropEndWhile_decomp (p : Char → Bool) (l : List Char) :
    ∃ b, l = dropEndWhile p l ++ b ∧ ∀ c ∈ b, p c = true := by
  refine ⟨(l.reverse.takeWhile p).reverse, ?_, ?_⟩
  · calc l = l.reverse.reverse := (List.reverse_reverse l).symm
    _ = (l.reverse.takeWhile p ++ l.reverse.dropWhile p).reverse := by
        rw [List.takeWhile_append_dropWhile]
    _ = (l.reverse.dropWhile p).reverse ++ (l.reverse.takeWhile p).reverse := by
        rw [List.reverse_append]
    _ = dropEndWhile p l ++ (l.reverse.takeWhile p).reverse := rfl
  · intro c hc
    exact List.mem_takeWhile_imp (List.mem_reverse.mp hc)

theorem stripBoth_decomp (p : Char → Bool) (l : List Char) :
    ∃ a b, l = a ++ dropEndWhile p (l.dropWhile p) ++ b ∧
      (∀ c ∈ a, p c = true) ∧ (∀ c ∈ b, p c = true) := by
  obtain ⟨a, ha, hap⟩ := dropWhile_decomp p l
  obtain ⟨b, hb, hbp⟩ := dropEndWhile_decomp p (l.dropWhile p)
  refine ⟨a, b, ?_, hap, hbp⟩
  calc l = a ++ l.dropWhile p := ha
  _ = a ++ (dropEndWhile p (l.dropWhile p) ++ b) := by rw [← hb]
  _ = a ++ dropEndWhile p (l.dropWhile p) ++ b := (List.append_assoc _ _ _).symm

theorem stripBoth_flanked (p : Char → Bool) (a b core : List Char)
    (ha : ∀ c ∈ a, p c = true) (hb : ∀ c ∈ b, p c = true)
    (hhead : ∀ x, core.head? = some x → p x = false)
    (hlast : ∀ x, core.getLast? = some x → p x = false)
    (hne : core ≠ []) :
    dropEndWhile p ((a ++ core ++ b).dropWhile p) = core := by
  obtain ⟨c0, ct, rfl⟩ : ∃ c0 ct, core = c0 :: ct := by
    cases core with
    | nil => exact absurd rfl hne
    | cons c0 ct => exact ⟨c0, ct, rfl⟩
  have h1 : (a ++ (c0 :: ct) ++ b).dropWhile p = (c0 :: ct) ++ b := by
    rw [List.append_assoc, dropWhile_append_all ha, List.cons_append, List.dropWhile_cons,
      hhead c0 rfl]
    simp
  rw [h1]
  unfold dropEndWhile
  rw [List.reverse_append,
    dropWhile_append_all (fun c hc => hb c (List.mem_reverse.mp hc))]
  have hne2 : (c0 :: ct).reverse ≠ [] := by simp
  obtain ⟨d0, dt, hd⟩ : ∃ d0 dt, (c0 :: ct).reverse = d0 :: dt := by
    cases hrev2 : (c0 :: ct).reverse with
    | nil => exact absurd hrev2 hne2
    | cons d0 dt => exact ⟨d0, dt, rfl⟩
  have h2 : p d0 = false := hlast d0 (by rw [← List.head?_reverse, hd]; rfl)
  have h3 : (d0 :: dt).dropWhile p = d0 :: dt := by
    rw [List.dropWhile_cons, h2]
    simp
  rw [hd, h3, ← hd, List.reverse_reverse]

theorem pyStrip_flanked (a b core : List Char)
    (ha : ∀ c ∈ a, isPySpace c = true) (hb : ∀ c ∈ b, isPySpace c = true)
    (hhead : ∀ x, core.head? = some x → isPySpace x = false)
    (hlast : ∀ x, core.getLast? = some x → isPySpace x = false)
    (hne : core ≠ []) :
    pyStrip (a ++ core ++ b) = core :=
  stripBoth_flanked isPySpace a b core ha hb hhead hlast hne

theorem pyStrip_eq_self_hl (core : List Char)
    (hhead : ∀ x, core.head? = some x → isPySpace x = false)
    (hlast : ∀ x, core.getLast? = some x → isPySpace x = false)
    (hne : core ≠ []) :
    pyStrip core = core := by
  have := pyStrip_flanked [] [] core (by simp) (by simp) hhead hlast hne
  simpa using this

theorem jsonStrip_eq_self_hl (core : List Char)
    (hhead : ∀ x, core.head? = some x → isJsonWs x = false)
    (hlast : ∀ x, core.getLast? = some x → isJsonWs x = false)
    (hne : core ≠ []) :
    jsonStrip core = core := by
  have := stripBoth_flanked isJsonWs [] [] core (by simp) (by simp) hhead hlast hne
  simpa using this

theorem jsonStrip_decomp (l : List Char) :
    ∃ a b, l = a ++ jsonStrip l ++ b ∧
      (∀ c ∈ a, isJsonWs c = true) ∧ (∀ c ∈ b, isJsonWs c = true) :=
  stripBoth_decomp isJsonWs l

theorem hasSub_iff (pat l : List Char) :
    hasSub pat l = true ↔ ∃ a b, l = a ++ pat ++ b := by
  induction l with
  | nil =>
      constructor
      · intro h
        have hpat : pat = [] := by simpa [hasSub, List.isEmpty_iff] using h
        exact ⟨[], [], by simp [hpat]⟩
      · rintro ⟨a, b, hab⟩
        obtain ⟨-, h2, -⟩ : a = [] ∧ pat = [] ∧ b = [] := by
          have := hab.symm
          simp only [List.append_eq_nil] at this
          exact ⟨this.1.1, this.1.2, this.2⟩
        simp [hasSub, h2]
  | cons c rest ih =>
      simp only [hasSub, Bool.or_eq_true]
      constructor
      · rintro (hp | hs)
        · obtain ⟨t, ht⟩ := List.isPrefixOf_iff_prefix.mp hp
          exact ⟨[], t, by simp [← ht]⟩
        · obtain ⟨a, b, hab⟩ := ih.mp hs
          exact ⟨c :: a, b, by simp [hab]⟩
      · rintro ⟨a, b, hab⟩
        cases a with
        | nil =>
            left
            exact List.isPrefixOf_iff_prefix.mpr ⟨b, by simpa using hab.symm⟩
        | cons a0 a1 =>
            right
            refine ih.mpr ⟨a1, b, ?_⟩
            simpa using (List.cons.inj hab).2

theorem hasSub_of_seg {pat l a m b : List Char} (hl : l = a ++ m ++ b)
    (hm : hasSub pat m = true) : hasSub pat l = true := by
  obtain ⟨x, y, hxy⟩ := (hasSub_iff pat m).mp hm
  refine (hasSub_iff pat l).mpr ⟨a ++ x, y ++ b, ?_⟩
  rw [hl, hxy]
  simp [List.append_assoc]

theorem hasSub_seg_false {pat l a m b : List Char} (hl : l = a ++ m ++ b)
    (h : hasSub pat l = false) : hasSub pat m = false := by
  cases hm : hasSub pat m with
  | false => rfl
  | true => exact absurd (hasSub_of_seg hl hm) (by simp [h])

theorem hasSub_fence_tag {l : List Char} (h : hasSub "```".data l = false) :
    hasSub "```json".data l = false := by
  cases hb : hasSub "```json".data l with
  | false => rfl
  | true =>
      exfalso
      obtain ⟨a, b, hab⟩ := (hasSub_iff _ l).mp hb
      have hsplit : "```json".data = "```".data ++ "json".data := by decide
      have : hasSub "```".data l = true :=
        (hasSub_iff _ l).mpr ⟨a, "json".data ++ b, by rw [hab, hsplit]; simp⟩
      exact absurd this (by simp [h])

theorem replaceSub_eq_self {pat repl : List Char} :
    ∀ l, hasSub pat l = false → replaceSub pat repl l = l := by
  intro l
  induction l with
  | nil => intro _; simp [replaceSub]
  | cons c rest ih =>
      intro h
      obtain ⟨h1, h2⟩ := Bool.or_eq_false_iff.mp (by simpa only [hasSub] using h)
      rw [replaceSub, dif_neg (by rintro ⟨-, hpre⟩; exact absurd hpre (by simp [h1]))]
      rw [ih h2]

theorem stripJsonTag_eq_self {cs : List Char}
    (h : ∀ x, cs.head? = some x → x.toLower ≠ 'j') : stripJsonTag cs = cs := by
  unfold stripJsonTag
  split
  · rename_i c1 c2 c3 c4 rest
    rw [if_neg]
    rintro ⟨h1, -⟩
    exact h c1 rfl h1
  · rfl

set_option maxRecDepth 2000

theorem suffix_cons_chain {l1 l2 : List Char} (c : Char) (h : l1 <:+ l2) :
    l1 <:+ c :: l2 :=
  h.trans (List.suffix_cons c l2)

theorem parseLowSurrogate_suffix {n : Nat} {r3 : List Char} {c2 : Char} {r4 : List Char}
    (h : parseLowSurrogate n r3 = some (c2, r4)) : r4 <:+ r3 := by
  rcases r3 with _ | ⟨b1, _ | ⟨b2, _ | ⟨g1, _ | ⟨g2, _ | ⟨g3, _ | ⟨g4, r5⟩⟩⟩⟩⟩⟩
  · simp [parseLowSurrogate] at h
  · simp [parseLowSurrogate] at h
  · simp [parseLowSurrogate] at h
  · simp [parseLowSurrogate] at h
  · simp [parseLowSurrogate] at h
  · simp [parseLowSurrogate] at h
  · simp only [parseLowSurrogate] at h
    split at h
    · split at h
      · simp at h
      · split at h
        · have h6 : r5 = r4 := congrArg Prod.snd (Option.some.inj h)
          rw [← h6]
          exact List.suffix_append [b1, b2, g1, g2, g3, g4] r5
        · simp at h
    · simp at h

theorem parseJString_suffix :
    ∀ fuel cs s r, parseJString fuel cs = some (s, r) → r <:+ cs := by
  intro fuel
  induction fuel with
  | zero => intro cs s r h; simp [parseJString] at h
  | succ fuel ih =>
      intro cs s r h
      rcases cs with _ | ⟨c, rest⟩
      · simp [parseJString] at h
      · simp only [parseJString] at h
        split at h
        · have h6 : rest = r := congrArg Prod.snd (Option.some.inj h)
          rw [← h6]
          exact List.suffix_cons _ _
        · split at h
          · split at h
            · simp at h
            · rename_i e r2
              split at h
              · split at h
                · rename_i x1 x2 x3 x4 r3
                  split at h
                  · simp at h
                  · rename_i n hx
                    split at h
                    · split at h
                      · simp at h
                      · rename_i c2 r4 hls
                        split at h
                        · rename_i s' r' hps
                          have h6 : r' = r := congrArg Prod.snd (Option.some.inj h)
                          rw [← h6]
                          refine (ih r4 s' r' hps).trans ?_
                          refine (parseLowSurrogate_suffix hls).trans ?_
                          exact List.suffix_append [c, e, x1, x2, x3, x4] r3
                        · simp at h
                    · split at h
                      · simp at h
                      · split at h
                        · rename_i s' r' hps
                          have h6 : r' = r := congrArg Prod.snd (Option.some.inj h)
                          rw [← h6]
                          exact (ih r3 s' r' hps).trans
                            (List.suffix_append [c, e, x1, x2, x3, x4] r3)
                        · simp at h
                · simp at h
              · split at h
                · rename_i c2 he
                  split at h
                  · rename_i s' r' hps
                    have h6 : r' = r := congrArg Prod.snd (Option.some.inj h)
                    rw [← h6]
                    exact suffix_cons_chain c (suffix_cons_chain e (ih r2 s' r' hps))
                  · simp at h
                · simp at h
          · split at h
            · simp at h
            · split at h
              · rename_i s' r' hps
                have h6 : r' = r := congrArg Prod.snd (Option.some.inj h)
                rw [← h6]
                exact suffix_cons_chain c (ih rest s' r' hps)
              · simp at h

theorem numSign_suffix {cs : List Char} {neg : Bool} {cs1 : List Char}
    (h : numSign cs = (neg, cs1)) : cs1 <:+ cs := by
  rcases cs with _ | ⟨c, r⟩
  · have h6 : ([] : List Char) = cs1 := congrArg Prod.snd h
    rw [← h6]
  · simp only [numSign] at h
    split at h
    · have h6 : r = cs1 := congrArg Prod.snd h
      rw [← h6]
      exact List.suffix_cons _ _
    · have h6 : c :: r = cs1 := congrArg Prod.snd h
      rw [← h6]

theorem expPart_suffix {r orig : List Char} {q : ℤ} {r2 : List Char}
    (h : expPart r orig = (q, r2)) : r2 = orig ∨ r2 <:+ r := by
  rcases r with _ | ⟨c, rt⟩
  · exact Or.inl (congrArg Prod.snd h).symm
  · simp only [expPart] at h
    split at h
    · split at h
      · exact Or.inl (congrArg Prod.snd h).symm
      · rename_i d r3
        split at h
        · refine Or.inr ?_
          have h6 : (d :: r3).dropWhile Char.isDigit = r2 := congrArg Prod.snd h
          rw [← h6]
          exact suffix_cons_chain c (List.dropWhile_suffix _)
        · exact Or.inl (congrArg Prod.snd h).symm
    · split at h
      · split at h
        · exact Or.inl (congrArg Prod.snd h).symm
        · rename_i d r3
          split at h
          · refine Or.inr ?_
            have h6 : (d :: r3).dropWhile Char.isDigit = r2 := congrArg Prod.snd h
            rw [← h6]
            exact suffix_cons_chain c (List.dropWhile_suffix _)
          · exact Or.inl (congrArg Prod.snd h).symm
      · split at h
        · refine Or.inr ?_
          have h6 : (c :: rt).dropWhile Char.isDigit = r2 := congrArg Prod.snd h
          rw [← h6]
          exact List.dropWhile_suffix _
        · exact Or.inl (congrArg Prod.snd h).symm

theorem numFrac_suffix {csa fp csb : List Char} (h : numFrac csa = (fp, csb)) :
    csb <:+ csa := by
  rcases csa with _ | ⟨d0, csa1⟩
  · have h6 : ([] : List Char) = csb := congrArg Prod.snd h
    rw [← h6]
  · simp only [numFrac] at h
    split at h
    · split at h
      · have h6 : [d0] = csb := congrArg Prod.snd h
        rw [← h6]
      · rename_i d r
        split at h
        · have h6 : (d :: r).dropWhile Char.isDigit = csb := congrArg Prod.snd h
          rw [← h6]
          exact suffix_cons_chain d0 (List.dropWhile_suffix _)
        · have h6 : d0 :: d :: r = csb := congrArg Prod.snd h
          rw [← h6]
    · have h6 : d0 :: csa1 = csb := congrArg Prod.snd h
      rw [← h6]

theorem numExp_suffix {csb : List Char} {ex : ℤ} {csc : List Char}
    (h : numExp csb = (ex, csc)) : csc <:+ csb := by
  rcases csb with _ | ⟨e0, r⟩
  · have h6 : ([] : List Char) = csc := congrArg Prod.snd h
    rw [← h6]
  · simp only [numExp] at h
    split at h
    · rcases expPart_suffix h with h2 | h2
      · rw [h2]
      · exact suffix_cons_chain e0 h2
    · have h6 : e0 :: r = csc := congrArg Prod.snd h
      rw [← h6]

theorem parseNumber_suffix {cs : List Char} {q : ℚ} {r : List Char}
    (h : parseNumber cs = some (q, r)) : r <:+ cs := by
  simp only [parseNumber] at h
  split at h
  · simp at h
  · rename_i c tl heq
    split at h
    · simp at h
    · have h6 := congrArg Prod.snd (Option.some.inj h)
      have h7 : (numExp (numFrac (if c = '0' then (['0'], tl)
          else (List.takeWhile Char.isDigit (numSign cs).2,
            List.dropWhile Char.isDigit (numSign cs).2)).2).2).2 = r := h6
      rw [← h7]
      have hns : (numSign cs).2 <:+ cs := numSign_suffix rfl
      have hcsa : (if c = '0' then (['0'], tl)
          else (List.takeWhile Char.isDigit (numSign cs).2,
            List.dropWhile Char.isDigit (numSign cs).2)).2 <:+ cs := by
        by_cases hc : c = '0'
        · rw [if_pos hc]
          refine List.IsSuffix.trans ?_ hns
          rw [heq]
          exact List.suffix_cons _ _
        · rw [if_neg hc]
          exact (List.dropWhile_suffix _).trans hns
      exact (numExp_suffix rfl).trans ((numFrac_suffix rfl).trans hcsa)

/-- The three mutual parsers only consume input: the remainder they
return is a suffix of what they were given. -/
theorem parse_suffix :
    ∀ fuel : Nat,
      (∀ cs v r, parseVal fuel cs = some (v, r) → r <:+ cs) ∧
      (∀ acc cs v r, parseMembers fuel acc cs = some (v, r) → r <:+ cs) ∧
      (∀ acc cs v r, parseElems fuel acc cs = some (v, r) → r <:+ cs) := by
  intro fuel
  induction fuel with
  | zero =>
      refine ⟨fun cs v r h => ?_, fun acc cs v r h => ?_, fun acc cs v r h => ?_⟩
      · simp [parseVal] at h
      · simp [parseMembers] at h
      · simp [parseElems] at h
  | succ fuel ih =>
      obtain ⟨ihV, ihM, ihE⟩ := ih
      refine ⟨fun cs v r h => ?_, fun acc cs v r h => ?_, fun acc cs v r h => ?_⟩
      · rcases cs with _ | ⟨c, rest⟩
        · simp [parseVal] at h
        · simp only [parseVal] at h
          split at h
          · split at h
            · exact suffix_cons_chain c (ihM [] rest v r h)
            · rename_i d r2 hdw
              split at h
              · have h6 : r2 = r := congrArg Prod.snd (Option.some.inj h)
                rw [← h6]
                refine suffix_cons_chain c ((List.suffix_cons d r2).trans ?_)
                rw [← hdw]
                exact List.dropWhile_suffix _
              · exact suffix_cons_chain c (ihM [] rest v r h)
          · split at h
            · split at h
              · exact suffix_cons_chain c (ihE [] rest v r h)
              · rename_i d r2 hdw
                split at h
                · have h6 : r2 = r := congrArg Prod.snd (Option.some.inj h)
                  rw [← h6]
                  refine suffix_cons_chain c ((List.suffix_cons d r2).trans ?_)
                  rw [← hdw]
                  exact List.dropWhile_suffix _
                · exact suffix_cons_chain c (ihE [] rest v r h)
            · split at h
              · split at h
                · rename_i s' r' hps
                  have h6 : r' = r := congrArg Prod.snd (Option.some.inj h)
                  rw [← h6]
                  exact suffix_cons_chain c (parseJString_suffix _ rest s' r' hps)
                · simp at h
              · split at h
                · split at h
                  · have h6 : rest.drop 3 = r := congrArg Prod.snd (Option.some.inj h)
                    rw [← h6]
                    exact suffix_cons_chain c (List.drop_suffix 3 rest)
                  · simp at h
                · split at h
                  · split at h
                    · have h6 : rest.drop 4 = r := congrArg Prod.snd (Option.some.inj h)
                      rw [← h6]
                      exact suffix_cons_chain c (List.drop_suffix 4 rest)
                    · simp at h
                  · split at h
                    · split at h
                      · have h6 : rest.drop 3 = r := congrArg Prod.snd (Option.some.inj h)
                        rw [← h6]
                        exact suffix_cons_chain c (List.drop_suffix 3 rest)
                      · simp at h
                    · split at h
                      · split at h
                        · rename_i q r' hpn
                          have h6 : r' = r := congrArg Prod.snd (Option.some.inj h)
                          rw [← h6]
                          exact parseNumber_suffix hpn
                        · simp at h
                      · simp at h
      · simp only [parseMembers] at h
        split at h
        · simp at h
        · rename_i c r0 hdw0
          split at h
          · split at h
            · rename_i key r1 hkey
              split at h
              · simp at h
              · rename_i d r2 hdw1
                split at h
                · split at h
                  · rename_i v1 r3 hval
                    split at h
                    · simp at h
                    · rename_i d2 r4 hdw2
                      have h0 : r3.dropWhile isJsonWs <:+ r3 := List.dropWhile_suffix _
                      rw [hdw2] at h0
                      have h1 : r4 <:+ r3 := (List.suffix_cons d2 r4).trans h0
                      have h2 : r3 <:+ r2 :=
                        (ihV _ _ _ hval).trans (List.dropWhile_suffix _)
                      have h4 : r1.dropWhile isJsonWs <:+ r1 := List.dropWhile_suffix _
                      rw [hdw1] at h4
                      have h5 : r2 <:+ r1 := (List.suffix_cons d r2).trans h4
                      have h7 : cs.dropWhile isJsonWs <:+ cs := List.dropWhile_suffix _
                      rw [hdw0] at h7
                      have h8 : r0 <:+ cs := (List.suffix_cons c r0).trans h7
                      have h9 : r1 <:+ r0 := parseJString_suffix _ _ _ _ hkey
                      have hcs : r4 <:+ cs :=
                        ((h1.trans (h2.trans h5)).trans h9).trans h8
                      split at h
                      · exact (ihM _ _ _ _ h).trans hcs
                      · split at h
                        · have h6 : r4 = r := congrArg Prod.snd (Option.some.inj h)
                          rw [← h6]
                          exact hcs
                        · simp at h
                  · simp at h
                · simp at h
            · simp at h
          · simp at h
      · simp only [parseElems] at h
        split at h
        · rename_i v1 r1 hval
          have h2 : r1 <:+ cs := (ihV _ _ _ hval).trans (List.dropWhile_suffix _)
          split at h
          · simp at h
          · rename_i d r2 hdw
            have h0 : r1.dropWhile isJsonWs <:+ r1 := List.dropWhile_suffix _
            rw [hdw] at h0
            have h3 : r2 <:+ cs := ((List.suffix_cons d r2).trans h0).trans h2
            split at h
            · exact (ihE _ _ _ _ h).trans h3
            · split at h
              · have h6 : r2 = r := congrArg Prod.snd (Option.some.inj h)
                rw [← h6]
                exact h3
              · simp at h
        · simp at h

/-- `parseMembers` only ever returns objects. -/
theorem parseMembers_shape :
    ∀ fuel acc cs v r, parseMembers fuel acc cs = some (v, r) →
      ∃ g, v = JVal.obj g := by
  intro fuel
  induction fuel with
  | zero => intro acc cs v r h; simp [parseMembers] at h
  | succ fuel ih =>
      intro acc cs v r h
      simp only [parseMembers] at h
      split at h
      · simp at h
      · split at h
        · split at h
          · split at h
            · simp at h
            · split at h
              · split at h
                · split at h
                  · simp at h
                  · split at h
                    · exact ih _ _ _ _ h
                    · split at h
                      · exact ⟨_, (congrArg Prod.fst (Option.some.inj h)).symm⟩
                      · simp at h
                · simp at h
              · simp at h
          · simp at h
        · simp at h

/-- `parseElems` only ever returns arrays. -/
theorem parseElems_shape :
    ∀ fuel acc cs v r, parseElems fuel acc cs = some (v, r) →
      ∃ g, v = JVal.arr g := by
  intro fuel
  induction fuel with
  | zero => intro acc cs v r h; simp [parseElems] at h
  | succ fuel ih =>
      intro acc cs v r h
      simp only [parseElems] at h
      split at h
      · split at h
        · simp at h
        · split at h
          · exact ih _ _ _ _ h
          · split at h
            · exact ⟨_, (congrArg Prod.fst (Option.some.inj h)).symm⟩
            · simp at h
      · simp at h

/-- When `parseMembers` succeeds with nothing left over, the input it
was handed ends with the closing `}`. -/
theorem parseMembers_last :
    ∀ fuel acc cs v, parseMembers fuel acc cs = some (v, []) →
      ['\x7d'] <:+ cs := by
  intro fuel
  induction fuel with
  | zero => intro acc cs v h; simp [parseMembers] at h
  | succ fuel ih =>
      intro acc cs v h
      simp only [parseMembers] at h
      split at h
      · simp at h
      · rename_i c r0 hdw0
        split at h
        · split at h
          · rename_i key r1 hkey
            split at h
            · simp at h
            · rename_i d r2 hdw1
              split at h
              · split at h
                · rename_i v1 r3 hval
                  split at h
                  · simp at h
                  · rename_i d2 r4 hdw2
                    have h0 : r3.dropWhile isJsonWs <:+ r3 := List.dropWhile_suffix _
                    rw [hdw2] at h0
                    have h2 : r3 <:+ r2 :=
                      ((parse_suffix fuel).1 _ _ _ hval).trans (List.dropWhile_suffix _)
                    have h4 : r1.dropWhile isJsonWs <:+ r1 := List.dropWhile_suffix _
                    rw [hdw1] at h4
                    have h5 : r2 <:+ r1 := (List.suffix_cons d r2).trans h4
                    have h7 : cs.dropWhile isJsonWs <:+ cs := List.dropWhile_suffix _
                    rw [hdw0] at h7
                    have h8 : r0 <:+ cs := (List.suffix_cons c r0).trans h7
                    have h9 : r1 <:+ r0 := parseJString_suffix _ _ _ _ hkey
                    have hr3cs : r3 <:+ cs := ((h2.trans h5).trans h9).trans h8
                    split at h
                    · have h1 : r4 <:+ r3 := (List.suffix_cons d2 r4).trans h0
                      exact (ih _ _ _ h).trans ((h1.trans h2).trans
                        ((h5.trans h9).trans h8))
                    · split at h
                      · rename_i hd2c hd2
                        have h6 : r4 = [] := congrArg Prod.snd (Option.some.inj h)
                        rw [h6, hd2] at h0
                        exact h0.trans hr3cs
                      · simp at h
                · simp at h
              · simp at h
          · simp at h
        · simp at h

/-- A successful complete `parseVal` returning an object starts at a
`{` and its input ends with `}`. -/
theorem parseVal_obj (fuel : Nat) (cs : List Char) (f : List (List Char × JVal))
    (h : parseVal fuel cs = some (JVal.obj f, [])) :
    ∃ tl, cs = '\x7b' :: tl ∧ ['\x7d'] <:+ cs := by
  rcases fuel with _ | fuel
  · simp [parseVal] at h
  rcases cs with _ | ⟨c, rest⟩
  · simp [parseVal] at h
  simp only [parseVal] at h
  split at h
  · rename_i hc
    subst hc
    refine ⟨rest, rfl, ?_⟩
    split at h
    · exact suffix_cons_chain _ (parseMembers_last _ _ _ _ h)
    · rename_i d r2 hdw
      split at h
      · rename_i hd
        have h6 : r2 = [] := congrArg Prod.snd (Option.some.inj h)
        have h0 : rest.dropWhile isJsonWs <:+ rest := List.dropWhile_suffix _
        rw [hdw, h6, hd] at h0
        exact suffix_cons_chain _ h0
      · exact suffix_cons_chain _ (parseMembers_last _ _ _ _ h)
  · exfalso
    split at h
    · split at h
      · obtain ⟨g, hg⟩ := parseElems_shape _ _ _ _ _ h
        exact JVal.noConfusion hg
      · split at h
        · have h6 := congrArg Prod.fst (Option.some.inj h)
          exact JVal.noConfusion h6
        · obtain ⟨g, hg⟩ := parseElems_shape _ _ _ _ _ h
          exact JVal.noConfusion hg
    · split at h
      · split at h
        · have h6 := congrArg Prod.fst (Option.some.inj h)
          exact JVal.noConfusion h6
        · simp at h
      · split at h
        · split at h
          · have h6 := congrArg Prod.fst (Option.some.inj h)
            exact JVal.noConfusion h6
          · simp at h
        · split at h
          · split at h
            · have h6 := congrArg Prod.fst (Option.some.inj h)
              exact JVal.noConfusion h6
            · simp at h
          · split at h
            · split at h
              · have h6 := congrArg Prod.fst (Option.some.inj h)
                exact JVal.noConfusion h6
              · simp at h
            · split at h
              · split at h
                · have h6 := congrArg Prod.fst (Option.some.inj h)
                  exact JVal.noConfusion h6
                · simp at h
              · simp at h

set_option maxRecDepth 100000

/-- C3 counterexample: on the valid JSON object `{"a":"x```y"}` the
repair pipeline's fence-marker removal rewrites the string content, so
the pipeline's result differs from the strict parse. -/
theorem repair_not_idempotent_counterexample :
    jsonParse "\x7b\"a\":\"x```y\"\x7d".data =
      some (JVal.obj [("a".data, JVal.str "x```y".data)]) ∧
    parse_model_json "\x7b\"a\":\"x```y\"\x7d".data =
      Except.ok (JVal.obj [("a".data, JVal.str "xy".data)]) ∧
    JVal.obj [("a".data, JVal.str "x```y".data)] ≠
      JVal.obj [("a".data, JVal.str "xy".data)] := by
  with_unfolding_all decide

/-- C3 (amended): when the raw reply text strictly parses (per
`json.loads`) to a JSON object and contains no ``` fence marker, the
repair pipeline is the identity on the parse: `parse_model_json`
returns exactly the strict parse.  (Unamended, the claim is refuted by
`repair_not_idempotent_counterexample`: the fence-marker removal can
rewrite string contents of an already-valid object.) -/
theorem repair_idempotent_no_fence (s : List Char) (f : List (List Char × JVal))
    (hv : jsonParse s = some (JVal.obj f))
    (hbt : hasSub "```".data s = false) :
    parse_model_json s = Except.ok (JVal.obj f) := by
  simp only [jsonParse] at hv
  split at hv
  · rename_i v hpv
    have hvf : v = JVal.obj f := Option.some.inj hv
    subst hvf
    obtain ⟨tl, hts, hsuf⟩ := parseVal_obj _ _ _ hpv
    have hne : jsonStrip s ≠ [] := by rw [hts]; simp
    have hheadJ : ∀ x, (jsonStrip s).head? = some x → isJsonWs x = false := by
      intro x hx
      rw [hts] at hx
      have hx' : x = '\x7b' := (Option.some.inj hx).symm
      rw [hx']
      decide
    have hheadP : ∀ x, (jsonStrip s).head? = some x → isPySpace x = false := by
      intro x hx
      rw [hts] at hx
      have hx' : x = '\x7b' := (Option.some.inj hx).symm
      rw [hx']
      decide
    obtain ⟨pre, hpre⟩ := hsuf
    have hlastJ : ∀ x, (jsonStrip s).getLast? = some x → isJsonWs x = false := by
      intro x hx
      rw [← hpre, List.getLast?_concat] at hx
      have hx' : x = '\x7d' := (Option.some.inj hx).symm
      rw [hx']
      decide
    have hlastP : ∀ x, (jsonStrip s).getLast? = some x → isPySpace x = false := by
      intro x hx
      rw [← hpre, List.getLast?_concat] at hx
      have hx' : x = '\x7d' := (Option.some.inj hx).symm
      rw [hx']
      decide
    obtain ⟨a, b, hs, ha, hb⟩ := jsonStrip_decomp s
    have hps : pyStrip s = jsonStrip s := by
      have hflank := pyStrip_flanked a b (jsonStrip s)
        (fun c hc => jws_pws (ha c hc)) (fun c hc => jws_pws (hb c hc))
        hheadP hlastP hne
      rw [← hs] at hflank
      exact hflank
    have hbt2 : hasSub "```".data (jsonStrip s) = false := hasSub_seg_false hs hbt
    have hbtj : hasSub "```json".data (jsonStrip s) = false := hasSub_fence_tag hbt2
    have hr1 : replaceSub "```json".data [] (jsonStrip s) = jsonStrip s :=
      replaceSub_eq_self _ hbtj
    have hr2 : replaceSub "```".data [] (jsonStrip s) = jsonStrip s :=
      replaceSub_eq_self _ hbt2
    have hpss : pyStrip (jsonStrip s) = jsonStrip s :=
      pyStrip_eq_self_hl _ hheadP hlastP hne
    have htag : stripJsonTag (jsonStrip s) = jsonStrip s := by
      apply stripJsonTag_eq_self
      intro x hx
      rw [hts] at hx
      have hx' : x = '\x7b' := (Option.some.inj hx).symm
      rw [hx']
      decide
    have hfs : fence_strip s = jsonStrip s := by
      simp only [fence_strip]
      rw [hps, hr1, hr2, hpss, htag, hpss]
    have hjs : jsonStrip (jsonStrip s) = jsonStrip s :=
      jsonStrip_eq_self_hl _ hheadJ hlastJ hne
    have hjp : jsonParse (jsonStrip s) = some (JVal.obj f) := by
      simp only [jsonParse, hjs]
      rw [hpv]
    simp only [parse_model_json, hfs, hjp]
  · simp at hv

theorem repair_idempotent_no_fence_witness :
    parse_model_json "\x7b\"a\":1\x7d".data =
      Except.ok (JVal.obj [("a".data, JVal.num 1)]) :=
  repair_idempotent_no_fence "\x7b\"a\":1\x7d".data
    [("a".data, JVal.num 1)]
    (by with_unfolding_all decide) (by decide)

end Bill
